import Mathlib

/-!
# Verification of the private-blockchain ledger engine

Shallow embedding of the ledger engine of this repository
(`src/block.js`, `src/blockchain.js`) and proofs about it.

Modelling conventions, stated once here:

* JavaScript numbers that the program uses are integers (block heights,
  epoch-second timestamps); they are modelled as `Nat`/`Int`.  Floating
  point never occurs on the verified paths.
* The wall clock is a parameter `now : Nat`, in whole seconds; the
  program's `new Date().getTime().toString().slice(0,-3)` is the decimal
  string of that seconds value, modelled by `natDec now`.
* `SHA256` composed with `JSON.stringify` of a block is modelled by
  `hashFn`, a concrete *injective* (collision-free) digest function over
  block contents.  Collision freeness is the standard idealisation of a
  cryptographic hash; every use is via `hashFn`.
* JSON values are modelled by the mutual inductive `Json`; `stringifyVal`
  models `JSON.stringify` and `jsonParse` models `JSON.parse` (restricted
  to integer numerals and to `\u` codes below the surrogate range, and
  without insignificant whitespace — `JSON.stringify` output never
  contains either, and these are the only strings the program parses).
* `Buffer.from(string).toString('hex')` is hex over the UTF-8 bytes
  (`utf8Encode`); the `hex2ascii` package decodes byte-wise with
  `String.fromCharCode` (`latin1OfBytes`), which does *not* invert UTF-8
  beyond ASCII — this mismatch is modelled exactly.
-/

/-- Decimal digit character: `digitChar d` is `'0' + d` for `d < 10`. -/
def digitChar (d : Nat) : Char := Char.ofNat (48 + d)

/-- Fuel-driven decimal rendering of a natural number (the fuel makes the
definition structurally recursive, hence kernel-reducible). -/
def natDecAux : Nat → Nat → List Char
  | 0, _ => []
  | fuel + 1, n =>
    if n < 10 then [digitChar n]
    else natDecAux fuel (n / 10) ++ [digitChar (n % 10)]

/-- Decimal rendering of a natural number, as JavaScript `String(n)`. -/
def natDec (n : Nat) : List Char := natDecAux (n + 1) n

/-- Decimal rendering of an integer, as JavaScript `String(n)`. -/
def intDec (n : Int) : List Char :=
  if n < 0 then '-' :: natDec n.natAbs else natDec n.toNat

/-- Numeric value of a decimal digit character. -/
def digitVal (c : Char) : Nat := c.toNat - 48

/-- Value of a list of decimal digit characters, most significant first. -/
def digsVal (ds : List Char) : Nat := ds.foldl (fun a c => a * 10 + digitVal c) 0

/-- Whitespace characters skipped by JavaScript `parseInt`. -/
def isWsChar (c : Char) : Bool := c = ' ' || c = '\t' || c = '\n' || c = '\r'

/-- Value of the leading run of decimal digits, `none` if there is none. -/
def leadDigits (cs : List Char) : Option Nat :=
  let ds := cs.takeWhile Char.isDigit
  if ds.isEmpty then none else some (digsVal ds)

/-- Model of JavaScript `parseInt(s)` (radix 10): skip leading whitespace,
read an optional sign and then the maximal run of decimal digits; `none`
models `NaN`.  (The `0x` hex prefix of `parseInt` is not modelled; the
program only parses decimal timestamp fields.) -/
def parseIntJS (cs : List Char) : Option Int :=
  match cs.dropWhile isWsChar with
  | [] => none
  | c :: tl =>
    if c = '-' then (leadDigits tl).map (fun n => -(n : Int))
    else if c = '+' then (leadDigits tl).map (fun n => (n : Int))
    else (leadDigits (c :: tl)).map (fun n => (n : Int))

/-- Model of JavaScript `message.split(':')`. -/
def splitOnColon : List Char → List (List Char)
  | [] => [[]]
  | c :: tl =>
    if c = ':' then [] :: splitOnColon tl
    else
      match splitOnColon tl with
      | [] => [[c]]
      | hd :: rest => (c :: hd) :: rest

/-- Lower-case hexadecimal digit character for `n < 16`. -/
def hexDigit (n : Nat) : Char := Char.ofNat (if n < 10 then 48 + n else 87 + n)

/-- Value of one hexadecimal digit character (upper or lower case). -/
def hexVal (c : Char) : Option Nat :=
  if 48 ≤ c.toNat ∧ c.toNat ≤ 57 then some (c.toNat - 48)
  else if 97 ≤ c.toNat ∧ c.toNat ≤ 102 then some (c.toNat - 87)
  else if 65 ≤ c.toNat ∧ c.toNat ≤ 70 then some (c.toNat - 55)
  else none

/-- `Buffer.prototype.toString('hex')`: two lower-case hex digits per byte. -/
def hexOfBytes : List Nat → List Char
  | [] => []
  | b :: tl => hexDigit (b / 16) :: hexDigit (b % 16) :: hexOfBytes tl

/-- Byte values read by the `hex2ascii` package: `parseInt(hex.substr(i,2),16)`
for consecutive pairs; like `parseInt`, a trailing lone digit parses alone,
an invalid first digit yields `NaN` (then `String.fromCharCode(NaN)` is the
NUL character, i.e. byte 0), an invalid second digit leaves the first. -/
def bytesOfHex : List Char → List Nat
  | [] => []
  | [c] => [(hexVal c).getD 0]
  | c1 :: c2 :: tl =>
    (match hexVal c1 with
     | none => 0
     | some a =>
       match hexVal c2 with
       | none => a
       | some b => 16 * a + b) :: bytesOfHex tl

/-- `String.fromCharCode` applied byte-wise, as `hex2ascii` does: each byte
becomes the character with that code (Latin-1 style, no UTF-8 decoding). -/
def latin1OfBytes (bs : List Nat) : List Char := bs.map (fun b => Char.ofNat b)

/-- UTF-8 encoding of one character (what `Buffer.from(string)` does per
character). -/
def utf8EncodeChar (c : Char) : List Nat :=
  let n := c.toNat
  if n < 128 then [n]
  else if n < 2048 then [192 + n / 64, 128 + n % 64]
  else if n < 65536 then [224 + n / 4096, 128 + n / 64 % 64, 128 + n % 64]
  else [240 + n / 262144, 128 + n / 4096 % 64, 128 + n / 64 % 64, 128 + n % 64]

/-- UTF-8 encoding of a character list. -/
def utf8Encode (cs : List Char) : List Nat := cs.flatMap utf8EncodeChar

/-- The net effect of UTF-8 encoding followed by byte-wise
`String.fromCharCode` decoding, on one character: ASCII survives, anything
else is garbled into its byte sequence read as individual characters. -/
def mangleChar (c : Char) : List Char := (utf8EncodeChar c).map (fun b => Char.ofNat b)

/-- `mangleChar` over a character list. -/
def mangleL (cs : List Char) : List Char := cs.flatMap mangleChar

mutual
/-- Model of a JSON value (a JavaScript value representable by
`JSON.stringify`/`JSON.parse`); numbers restricted to integers. -/
inductive Json where
  | null : Json
  | bool (b : Bool) : Json
  | num (n : Int) : Json
  | str (s : String) : Json
  | arr (elems : JsonList) : Json
  | obj (fields : JsonFields) : Json
/-- List of JSON array elements (mutual with `Json`). -/
inductive JsonList where
  | nil : JsonList
  | cons (hd : Json) (tl : JsonList) : JsonList
/-- Ordered list of JSON object members (mutual with `Json`). -/
inductive JsonFields where
  | nil : JsonFields
  | cons (key : String) (val : Json) (tl : JsonFields) : JsonFields
end

deriving instance DecidableEq for Json, JsonList, JsonFields

/-- `JSON.stringify` escaping of one character inside a string literal. -/
def escChar (c : Char) : List Char :=
  if c = '"' then ['\\', '"']
  else if c = '\\' then ['\\', '\\']
  else if c = '\x08' then ['\\', 'b']
  else if c = '\x09' then ['\\', 't']
  else if c = '\x0a' then ['\\', 'n']
  else if c = '\x0c' then ['\\', 'f']
  else if c = '\x0d' then ['\\', 'r']
  else if c.toNat < 32 then ['\\', 'u', '0', '0', hexDigit (c.toNat / 16), hexDigit (c.toNat % 16)]
  else [c]

/-- `escChar` over a character list. -/
def escL (cs : List Char) : List Char := cs.flatMap escChar

/-- A `JSON.stringify` string literal: quote, escaped content, quote. -/
def quoteL (cs : List Char) : List Char := '"' :: escL cs ++ ['"']

mutual
/-- Model of `JSON.stringify` (producing a character list). -/
def stringifyVal : Json → List Char
  | .null => 'n' :: 'u' :: 'l' :: 'l' :: []
  | .bool true => 't' :: 'r' :: 'u' :: 'e' :: []
  | .bool false => 'f' :: 'a' :: 'l' :: 's' :: 'e' :: []
  | .num n => intDec n
  | .str s => quoteL s.data
  | .arr xs => '[' :: stringifyElems xs ++ [']']
  | .obj fs => '\x7b' :: stringifyMembers fs ++ ['\x7d']
/-- Array elements of `JSON.stringify`, comma separated, no brackets. -/
def stringifyElems : JsonList → List Char
  | .nil => []
  | .cons v .nil => stringifyVal v
  | .cons v tl => stringifyVal v ++ ',' :: stringifyElems tl
/-- Object members of `JSON.stringify`, comma separated, no braces. -/
def stringifyMembers : JsonFields → List Char
  | .nil => []
  | .cons k v .nil => quoteL k.data ++ ':' :: stringifyVal v
  | .cons k v tl => quoteL k.data ++ ':' :: stringifyVal v ++ ',' :: stringifyMembers tl
end

mutual
/-- All string content (values and keys) of a JSON value is ASCII. -/
def asciiVal : Json → Bool
  | .null => true
  | .bool _ => true
  | .num _ => true
  | .str s => s.data.all (fun c => c.toNat < 128)
  | .arr xs => asciiElems xs
  | .obj fs => asciiMembers fs
/-- `asciiVal` over array elements. -/
def asciiElems : JsonList → Bool
  | .nil => true
  | .cons v tl => asciiVal v && asciiElems tl
/-- `asciiVal` over object members. -/
def asciiMembers : JsonFields → Bool
  | .nil => true
  | .cons k v tl => (k.data.all (fun c => c.toNat < 128) && asciiVal v) && asciiMembers tl
end

mutual
/-- The value actually recovered after the UTF-8 / `fromCharCode` mismatch:
every string in the value, key or content, goes through `mangleL`. -/
def mangleJson : Json → Json
  | .null => .null
  | .bool b => .bool b
  | .num n => .num n
  | .str s => .str (String.mk (mangleL s.data))
  | .arr xs => .arr (mangleElems xs)
  | .obj fs => .obj (mangleMembers fs)
/-- `mangleJson` over array elements. -/
def mangleElems : JsonList → JsonList
  | .nil => .nil
  | .cons v tl => .cons (mangleJson v) (mangleElems tl)
/-- `mangleJson` over object members. -/
def mangleMembers : JsonFields → JsonFields
  | .nil => .nil
  | .cons k v tl => .cons (String.mk (mangleL k.data)) (mangleJson v) (mangleMembers tl)
end

/-- `JSON.parse` unescaping of one escaped character (the single-character
escapes; `\u` is handled separately). -/
def escDecode (e : Char) : Option Char :=
  if e = '"' then some '"'
  else if e = '\\' then some '\\'
  else if e = '/' then some '/'
  else if e = 'b' then some '\x08'
  else if e = 't' then some '\x09'
  else if e = 'n' then some '\x0a'
  else if e = 'f' then some '\x0c'
  else if e = 'r' then some '\x0d'
  else none

/-- String-literal body parser of `JSON.parse`: consumes up to and including
the closing quote, returning content and remainder.  Fuel-driven (one unit
per produced character) so that it is structurally recursive. -/
def parseStrBody : Nat → List Char → Option (List Char × List Char)
  | 0, _ => none
  | _, [] => none
  | fuel + 1, c :: rest =>
    if c = '"' then some ([], rest)
    else if c = '\\' then
      match rest with
      | [] => none
      | e :: rest1 =>
        match escDecode e with
        | some d => (parseStrBody fuel rest1).map (fun p => (d :: p.1, p.2))
        | none =>
          if e = 'u' then
            match rest1 with
            | h1 :: h2 :: h3 :: h4 :: rest2 =>
              match hexVal h1, hexVal h2, hexVal h3, hexVal h4 with
              | some a, some b, some c2, some d2 =>
                let code := ((a * 16 + b) * 16 + c2) * 16 + d2
                if code < 55296 then
                  (parseStrBody fuel rest2).map (fun p => (Char.ofNat code :: p.1, p.2))
                else none
              | _, _, _, _ => none
            | _ => none
          else none
    else if c.toNat < 32 then none
    else (parseStrBody fuel rest).map (fun p => (c :: p.1, p.2))

/-- Leading decimal-digit run as a parsed number with remainder. -/
def parseDigits (cs : List Char) : Option (Nat × List Char) :=
  let ds := cs.takeWhile Char.isDigit
  if ds.isEmpty then none else some (digsVal ds, cs.dropWhile Char.isDigit)

mutual
/-- Value parser of `JSON.parse`, fuel-driven. -/
def parseVal : Nat → List Char → Option (Json × List Char)
  | 0, _ => none
  | _, [] => none
  | fuel + 1, c :: rest =>
    if c = 'n' then
      match rest with
      | 'u' :: 'l' :: 'l' :: r => some (.null, r)
      | _ => none
    else if c = 't' then
      match rest with
      | 'r' :: 'u' :: 'e' :: r => some (.bool true, r)
      | _ => none
    else if c = 'f' then
      match rest with
      | 'a' :: 'l' :: 's' :: 'e' :: r => some (.bool false, r)
      | _ => none
    else if c = '"' then
      match parseStrBody rest.length rest with
      | some (s, r) => some (.str (String.mk s), r)
      | none => none
    else if c = '[' then
      match rest with
      | [] => none
      | c2 :: r2 =>
        if c2 = ']' then some (.arr .nil, r2)
        else
          match parseElems fuel (c2 :: r2) with
          | some (xs, r) => some (.arr xs, r)
          | none => none
    else if c = '\x7b' then
      match rest with
      | [] => none
      | c2 :: r2 =>
        if c2 = '\x7d' then some (.obj .nil, r2)
        else
          match parseMembers fuel (c2 :: r2) with
          | some (fs, r) => some (.obj fs, r)
          | none => none
    else if c = '-' then
      match parseDigits rest with
      | some (n, r) => some (.num (-(n : Int)), r)
      | none => none
    else if c.isDigit then
      match parseDigits (c :: rest) with
      | some (n, r) => some (.num (n : Int), r)
      | none => none
    else none
/-- Array-element list parser: elements already past the `[`, consumes the
closing `]`. -/
def parseElems : Nat → List Char → Option (JsonList × List Char)
  | 0, _ => none
  | fuel + 1, cs =>
    match parseVal fuel cs with
    | some (v, r) =>
      (match r with
       | ',' :: r2 =>
         match parseElems fuel r2 with
         | some (tl, r3) => some (.cons v tl, r3)
         | none => none
       | ']' :: r2 => some (.cons v .nil, r2)
       | _ => none)
    | none => none
/-- Object-member list parser: members already past the opening brace,
consumes the closing brace. -/
def parseMembers : Nat → List Char → Option (JsonFields × List Char)
  | 0, _ => none
  | fuel + 1, cs =>
    match cs with
    | [] => none
    | c :: rest =>
      if c = '"' then
        match parseStrBody rest.length rest with
        | some (k, r) =>
          (match r with
           | ':' :: r1 =>
             match parseVal fuel r1 with
             | some (v, r2) =>
               (match r2 with
                | ',' :: r3 =>
                  match parseMembers fuel r3 with
                  | some (tl, r4) => some (.cons (String.mk k) v tl, r4)
                  | none => none
                | '\x7d' :: r3 => some (.cons (String.mk k) v .nil, r3)
                | _ => none)
             | none => none
           | _ => none)
        | none => none
      else none
end

/-- Model of `JSON.parse`: parse one value, require the input consumed. -/
def jsonParse (s : String) : Option Json :=
  match parseVal (s.data.length + 1) s.data with
  | some (v, []) => some v
  | _ => none

/-- The payload codec's encode side, as in the `Block` constructor:
`Buffer.from(JSON.stringify(data)).toString('hex')`. -/
def encodeData (d : Json) : String :=
  String.mk (hexOfBytes (utf8Encode (stringifyVal d)))

/-- The payload codec's decode side, as in `getBData` and
`getStarsByWalletAddress`: `JSON.parse(hex2ascii(body))`. -/
def decodePayload (body : String) : Option Json :=
  jsonParse (String.mk (latin1OfBytes (bytesOfHex body.data)))

/-- One ledger entry, the fields of `class Block` in `src/block.js`:
`hash`, `height`, `body` (hex payload), `time` (seconds string, a string
because the append protocol assigns `...toString().slice(0,-3)`), and
`previousBlockHash`.  The constructor's transient numeric `time = 0` is
modelled as `"0"`; the append protocol overwrites it before any hashing. -/
structure Block where
  hash : Option String
  height : Nat
  body : String
  time : String
  previousBlockHash : Option String
deriving DecidableEq

instance : Inhabited Block := ⟨⟨none, 0, "", "0", none⟩⟩

/-- Length-prefixed injective rendering of a string (prefix in unary so the
injectivity proof is elementary). -/
def encStrL (s : List Char) : List Char := List.replicate s.length 'L' ++ ':' :: s

/-- Injective rendering of a nullable string field. -/
def encOptStr : Option String → List Char
  | none => ['N']
  | some s => 'S' :: encStrL s.data

/-- Injective rendering of a numeric field (unary). -/
def encNat (n : Nat) : List Char := List.replicate n 'U' ++ [';']

/-- Injective rendering of a whole block, all five fields in declaration
order — the model of `JSON.stringify(block)` as a hash preimage. -/
def encBlock (b : Block) : List Char :=
  encOptStr b.hash ++ encNat b.height ++ encStrL b.body.data ++
    encStrL b.time.data ++ encOptStr b.previousBlockHash

/-- Model of `SHA256(JSON.stringify(block)).toString()`: a deterministic,
collision-free digest of the block's serialised representation.  Injectivity
(proved below) is the idealisation of SHA-256 collision resistance. -/
def hashFn (b : Block) : String := String.mk (encBlock b)

/-- `Block.prototype.validate` (`src/block.js`): compare the stored hash
with the hash recomputed over a copy of the block whose `hash` field is
`null`; a block whose stored hash is `null` compares unequal to the
recomputed string and is invalid. -/
def Block.validateB (b : Block) : Bool :=
  match b.hash with
  | none => false
  | some h => h = hashFn { b with hash := none }

/-- `new Block(data)` (`src/block.js` constructor): null hash, height 0,
hex-of-JSON body, transient time, null previous hash. -/
def Block.mkNew (data : Json) : Block :=
  { hash := none, height := 0, body := encodeData data, time := "0", previousBlockHash := none }

/-- `Block.prototype.getBData`: decode the body for any non-genesis block,
reject for the genesis block.  A `JSON.parse` failure throws inside the
promise executor, i.e. rejects, modelled by `Except.error`. -/
def Block.getBData (b : Block) : Except String Json :=
  if b.height ≠ 0 then
    match decodePayload b.body with
    | some d => .ok d
    | none => .error "SyntaxError"
  else .error "Genesis block has no transaction data"

/-- One entry of `validateChain`'s error log. -/
structure ChainError where
  block : Nat
  error : String
deriving DecidableEq

/-- The mutable state of `class Blockchain`: the `chain` array and the
cached `height` field (`-1` before genesis). -/
structure ChainState where
  chain : List Block
  height : Int
deriving DecidableEq

/-- Index-carrying walk of `validateChain` (`src/blockchain.js`): for the
block at index `i`, first the `validate()` check, then for `i > 0` the
`previousBlockHash` link check against `chain[i-1]`; errors are collected
in index order (the promise callbacks resolve in creation order). -/
def validateChainAux (chain : List Block) : Nat → List Block → List ChainError
  | _, [] => []
  | i, b :: tl =>
    ((if b.validateB then [] else [⟨i, "Block validation failed"⟩]) ++
      (if i > 0 then
        match chain.get? (i - 1) with
        | some prev => if b.previousBlockHash ≠ prev.hash then [⟨i, "Previous block hash mismatch"⟩] else []
        | none => []
      else [])) ++ validateChainAux chain (i + 1) tl

/-- `Blockchain.prototype.validateChain`: the collected error log. -/
def validateChain (chain : List Block) : List ChainError :=
  validateChainAux chain 0 chain

/-- The block as `_addBlock` finishes preparing it, just before the push:
`previousBlockHash` from the current tail (if the chain is non-empty),
`time` from the clock, `height = chain.length`, then `hash` over the
whole block as it stands (its `hash` field still being the constructor's
`null` for every block the program ever passes in). -/
def finalizeBlock (now : Nat) (s : ChainState) (b : Block) : Block :=
  let b1 :=
    match s.chain.getLast? with
    | some last => { b with previousBlockHash := last.hash }
    | none => b
  let b2 := { b1 with time := String.mk (natDec now), height := s.chain.length }
  { b2 with hash := some (hashFn b2) }

/-- `Blockchain.prototype._addBlock`: prepare the block, push it, increment
the cached height, then re-validate the whole chain; reject with the error
log if it is non-empty (the push is *not* rolled back), resolve with the
block otherwise. -/
def addBlock (now : Nat) (s : ChainState) (b : Block) : ChainState × Except (List ChainError) Block :=
  let nb := finalizeBlock now s b
  let s' : ChainState := ⟨s.chain ++ [nb], s.height + 1⟩
  let errors := validateChain s'.chain
  if errors.isEmpty then (s', .ok nb) else (s', .error errors)

/-- The payload of the genesis block: `{data: 'Genesis Block'}`. -/
def genesisData : Json := .obj (.cons "data" (.str "Genesis Block") .nil)

/-- Constructor plus `initializeChain`: start from `chain = []`,
`height = -1`, then `_addBlock(new Block({data:'Genesis Block'}))`. -/
def initializeChain (now : Nat) : ChainState :=
  (addBlock now ⟨[], -1⟩ (Block.mkNew genesisData)).1

/-- `requestMessageOwnershipVerification(address)`: the challenge string
`"{address}:{seconds}:starRegistry"` (braces meant literally). -/
def requestOwnership (address : String) (now : Nat) : String :=
  address ++ ":" ++ String.mk (natDec now) ++ ":starRegistry"

/-- The timestamp `submitStar` extracts from the presented message:
`parseInt(message.split(':')[1])`; `none` models `NaN` (also the result of
`parseInt(undefined)` when the split has no second component). -/
def messageTimeOf (message : String) : Option Int :=
  match (splitOnColon message.data).get? 1 with
  | some part => parseIntJS part
  | none => none

/-- The freshness test of `submitStar`:
`(currentTime - messageTime) < 300`, which is `false` whenever
`messageTime` is `NaN`. -/
def freshCheck (message : String) (now : Nat) : Bool :=
  match messageTimeOf message with
  | some t => (now : Int) - t < 300
  | none => false

/-- The rejection values of `submitStar`. -/
inductive SubmitError where
  | expired : SubmitError
  | badSignature : SubmitError
  | appendFailed (errs : List ChainError) : SubmitError
deriving DecidableEq

/-- `Blockchain.prototype.submitStar`: check freshness of the presented
message against the clock, delegate to the external signature verifier
(`bitcoinMessage.verify`, passed in as the capability `verify`), then build
`new Block({owner: address, star: star})` and append it.  `currentTime` is
`parseInt` of the seconds string of the clock, i.e. the clock value itself
(`parseIntJS_natDec` below). -/
def submitStar (verify : String → String → String → Bool) (now : Nat) (s : ChainState)
    (address message signature : String) (star : Json) :
    ChainState × Except SubmitError Block :=
  if freshCheck message now then
    if verify message address signature then
      match addBlock now s (Block.mkNew (.obj (.cons "owner" (.str address) (.cons "star" star .nil)))) with
      | (s', .ok blk) => (s', .ok blk)
      | (s', .error e) => (s', .error (.appendFailed e))
    else (s, .error .badSignature)
  else (s, .error .expired)

/-- Last-wins field lookup, as JavaScript property access on an object
built by `JSON.parse` (duplicate keys: the last occurrence wins); `none`
models `undefined`, in particular property access on any non-object
JSON value other than `null` (property access on `null` throws and is
handled at the call site). -/
def fieldsGet : JsonFields → String → Option Json
  | .nil, _ => none
  | .cons k v tl, key =>
    match fieldsGet tl key with
    | some r => some r
    | none => if k = key then some v else none

/-- Property access `d.name` on a decoded JSON value. -/
def Json.getField : Json → String → Option Json
  | .obj fs, key => fieldsGet fs key
  | _, _ => none

/-- JavaScript truthiness of a JSON value. -/
def jsTruthy : Json → Bool
  | .null => false
  | .bool b => b
  | .num n => n ≠ 0
  | .str s => s ≠ ""
  | .arr _ => true
  | .obj _ => true

/-- The filter applied per block by `getStarsByWalletAddress`:
`decodedData.owner && decodedData.owner === address`. -/
def ownerMatches (d : Json) (address : String) : Bool :=
  match d.getField "owner" with
  | some v => jsTruthy v && v = Json.str address
  | none => false

/-- The body of `getStarsByWalletAddress`'s `map`/`filter` pipeline, walked
block by block in chain order: a `JSON.parse` failure throws (rejects), as
does property access on a decoded `null`; a block whose owner check fails,
or whose `star` member is `undefined`, contributes nothing. -/
def collectStars (address : String) : List Block → Except String (List Json)
  | [] => .ok []
  | b :: tl =>
    match decodePayload b.body with
    | none => .error "SyntaxError"
    | some d =>
      if d = Json.null then .error "TypeError"
      else
        match collectStars address tl with
        | .error e => .error e
        | .ok rest =>
          .ok ((if ownerMatches d address then (d.getField "star").toList else []) ++ rest)

/-- `Blockchain.prototype.getStarsByWalletAddress`: the filtered stars, or
`null` (here `none`) when the filtered list is empty. -/
def getStarsByWalletAddress (chain : List Block) (address : String) :
    Except String (Option (List Json)) :=
  match collectStars address chain with
  | .error e => .error e
  | .ok stars => .ok (if stars.isEmpty then none else some stars)

/-- The ledger states reachable through the engine: genesis initialisation
followed by any sequence of appends of freshly constructed blocks carrying
object payloads — which is how every append in the program happens
(`initializeChain` with `{data:...}` and `submitStar` with
`{owner:..., star:...}`). -/
inductive Reachable : ChainState → Prop where
  | init : ∀ now, Reachable (initializeChain now)
  | step : ∀ s now fs, Reachable s →
      Reachable (addBlock now s (Block.mkNew (Json.obj fs))).1

/-- The spec's description of the identity query (`getRecordsByIdentity`):
the record (`star`) values of the blocks whose decoded payload has an
`owner` equal to the identity, in chain order.  Modelled from the spec's
words, for comparison with `getStarsByWalletAddress`. -/
def specRecordsFor (chain : List Block) (identity : String) : List Json :=
  chain.flatMap fun b =>
    match decodePayload b.body with
    | some d => if d.getField "owner" = some (.str identity) then (d.getField "star").toList else []
    | none => []

/-- The structural invariant the append protocol maintains over the stored
chain: heights equal indices, every stored hash is the digest of the block
with its `hash` field nulled, every body decodes to a JSON object, the
genesis block has no previous hash, and each block's `previousBlockHash` is
the stored hash of its predecessor. -/
def WFChain (chain : List Block) : Prop :=
  (∀ i b, chain.get? i = some b →
    b.height = i ∧ b.hash = some (hashFn { b with hash := none }) ∧
    ∃ fs : JsonFields, decodePayload b.body = some (.obj fs)) ∧
  (∀ b, chain.get? 0 = some b → b.previousBlockHash = none) ∧
  (∀ i a b, chain.get? i = some a → chain.get? (i + 1) = some b →
    b.previousBlockHash = a.hash)

/-- `WFChain` plus the cached-height equation `height = chain.length - 1`. -/
def WFState (s : ChainState) : Prop :=
  WFChain s.chain ∧ s.height = (s.chain.length : Int) - 1

/-! ## Elementary character facts -/

theorem char_toNat_lt (c : Char) : c.toNat < 1114112 := by
  have h := c.valid
  rw [Char.toNat]
  rcases h with h | h <;> omega

theorem char_toNat_ofNat (n : Nat) (h : n < 55296) : (Char.ofNat n).toNat = n := by
  have hv : n.isValidChar := Or.inl h
  simp [Char.ofNat, hv, Char.ofNatAux, Char.toNat, UInt32.toNat]

theorem char_isDigit_iff (c : Char) : c.isDigit = true ↔ 48 ≤ c.toNat ∧ c.toNat ≤ 57 := by
  rw [Char.isDigit, Bool.and_eq_true, decide_eq_true_eq, decide_eq_true_eq]
  exact ⟨fun ⟨h1, h2⟩ => ⟨h1, h2⟩, fun ⟨h1, h2⟩ => ⟨h1, h2⟩⟩

theorem char_ne_of_toNat_ne {c d : Char} (h : c.toNat ≠ d.toNat) : c ≠ d := by
  intro he; exact h (by rw [he])

theorem digitChar_toNat {d : Nat} (h : d < 10) : (digitChar d).toNat = 48 + d :=
  char_toNat_ofNat _ (by omega)

theorem digitChar_isDigit {d : Nat} (h : d < 10) : (digitChar d).isDigit = true := by
  rw [char_isDigit_iff, digitChar_toNat h]; omega

theorem digitVal_digitChar {d : Nat} (h : d < 10) : digitVal (digitChar d) = d := by
  rw [digitVal, digitChar_toNat h]; omega

/-! ## Decimal rendering round trip -/

theorem natDecAux_spec : ∀ fuel n, n < fuel →
    (natDecAux fuel n ≠ [] ∧ (∀ c ∈ natDecAux fuel n, 48 ≤ c.toNat ∧ c.toNat ≤ 57) ∧
      ∀ a : Nat, (natDecAux fuel n).foldl (fun a c => a * 10 + digitVal c) a =
        a * 10 ^ (natDecAux fuel n).length + n) := by
  intro fuel
  induction fuel with
  | zero => omega
  | succ fuel ih =>
    intro n hn
    by_cases h10 : n < 10
    · simp only [natDecAux, if_pos h10]
      refine ⟨by simp, ?_, ?_⟩
      · intro c hc
        simp only [List.mem_singleton] at hc
        subst hc
        rw [digitChar_toNat h10]; omega
      · intro a
        simp [digitVal_digitChar h10]
    · have hrec : n / 10 < fuel := by omega
      obtain ⟨hne, hdig, hval⟩ := ih (n / 10) hrec
      simp only [natDecAux, if_neg h10]
      refine ⟨by simp, ?_, ?_⟩
      · intro c hc
        rcases List.mem_append.1 hc with h | h
        · exact hdig c h
        · simp only [List.mem_singleton] at h
          subst h
          rw [digitChar_toNat (by omega)]; omega
      · intro a
        rw [List.foldl_append, hval a]
        simp only [List.foldl_cons, List.foldl_nil, List.length_append,
          List.length_singleton, digitVal_digitChar (show n % 10 < 10 by omega)]
        rw [pow_succ]
        have hdm : n / 10 * 10 + n % 10 = n := by omega
        ring_nf
        omega

theorem natDec_ne_nil (n : Nat) : natDec n ≠ [] :=
  (natDecAux_spec (n + 1) n (by omega)).1

theorem natDec_digits (n : Nat) : ∀ c ∈ natDec n, 48 ≤ c.toNat ∧ c.toNat ≤ 57 :=
  (natDecAux_spec (n + 1) n (by omega)).2.1

theorem digsVal_natDec (n : Nat) : digsVal (natDec n) = n := by
  have h := (natDecAux_spec (n + 1) n (by omega)).2.2 0
  rw [digsVal, natDec, h]; omega

/-! ## Maximal digit runs -/

theorem takeWhile_all_append {p : Char → Bool} : ∀ (ds rest : List Char),
    (∀ c ∈ ds, p c = true) → (∀ c ∈ rest.head?, p c = false) →
    (ds ++ rest).takeWhile p = ds ∧ (ds ++ rest).dropWhile p = rest := by
  intro ds
  induction ds with
  | nil =>
    intro rest _ hrest
    cases rest with
    | nil => simp
    | cons c tl =>
      have : p c = false := hrest c rfl
      simp [List.takeWhile_cons, List.dropWhile_cons, this]
  | cons d ds ih =>
    intro rest hds hrest
    have hd : p d = true := hds d (by simp)
    obtain ⟨h1, h2⟩ := ih rest (fun c hc => hds c (by simp [hc])) hrest
    simp [List.takeWhile_cons, List.dropWhile_cons, hd, h1, h2]

/-- Heads that stop a digit run. -/
def noDigitStart (rest : List Char) : Prop := ∀ c ∈ rest.head?, c.isDigit = false

theorem parseDigits_natDec (n : Nat) (rest : List Char) (hrest : noDigitStart rest) :
    parseDigits (natDec n ++ rest) = some (n, rest) := by
  have hds : ∀ c ∈ natDec n, c.isDigit = true := fun c hc =>
    (char_isDigit_iff c).2 (natDec_digits n c hc)
  obtain ⟨h1, h2⟩ := takeWhile_all_append (natDec n) rest hds hrest
  rw [parseDigits]
  simp only [h1, h2, List.isEmpty_iff]
  rw [if_neg (natDec_ne_nil n), digsVal_natDec]

theorem leadDigits_natDec (n : Nat) (rest : List Char) (hrest : noDigitStart rest) :
    leadDigits (natDec n ++ rest) = some n := by
  have hds : ∀ c ∈ natDec n, c.isDigit = true := fun c hc =>
    (char_isDigit_iff c).2 (natDec_digits n c hc)
  obtain ⟨h1, _⟩ := takeWhile_all_append (natDec n) rest hds hrest
  rw [leadDigits]
  simp only [h1, List.isEmpty_iff]
  rw [if_neg (natDec_ne_nil n), digsVal_natDec]

theorem parseIntJS_natDec (n : Nat) (rest : List Char) (hrest : noDigitStart rest) :
    parseIntJS (natDec n ++ rest) = some (n : Int) := by
  obtain ⟨d, ds, hshape⟩ : ∃ d ds, natDec n = d :: ds := by
    cases h : natDec n with
    | nil => exact absurd h (natDec_ne_nil n)
    | cons d ds => exact ⟨d, ds, rfl⟩
  have hd : 48 ≤ d.toNat ∧ d.toNat ≤ 57 := natDec_digits n d (by rw [hshape]; simp)
  have hne : ∀ d2 : Char, d2.toNat < 48 ∨ 57 < d2.toNat → d ≠ d2 := by
    intro d2 hd2 he; subst he; omega
  rw [parseIntJS, hshape]
  have hws : isWsChar d = false := by
    have h1 : d ≠ ' ' := hne ' ' (by decide)
    have h2 : d ≠ '\t' := hne '\t' (by decide)
    have h3 : d ≠ '\n' := hne '\n' (by decide)
    have h4 : d ≠ '\r' := hne '\r' (by decide)
    simp [isWsChar, h1, h2, h3, h4]
  simp only [List.cons_append, List.dropWhile_cons, hws, if_neg (Bool.false_ne_true)]
  rw [if_neg (hne '-' (by decide)), if_neg (hne '+' (by decide))]
  have : d :: (ds ++ rest) = natDec n ++ rest := by rw [hshape]; simp
  rw [this, leadDigits_natDec n rest hrest]
  rfl

/-! ## Splitting the challenge string -/

theorem splitOnColon_no_colon : ∀ (a : List Char), ':' ∉ a → splitOnColon a = [a] := by
  intro a
  induction a with
  | nil => intro _; rfl
  | cons c tl ih =>
    intro hnc
    have hc : c ≠ ':' := fun he => hnc (by simp [he])
    have htl : ':' ∉ tl := fun hm => hnc (by simp [hm])
    rw [splitOnColon, if_neg hc, ih htl]

theorem splitOnColon_append : ∀ (a b : List Char), ':' ∉ a →
    splitOnColon (a ++ ':' :: b) = a :: splitOnColon b := by
  intro a
  induction a with
  | nil => intro b _; simp [splitOnColon]
  | cons c tl ih =>
    intro b hnc
    have hc : c ≠ ':' := fun he => hnc (by simp [he])
    have htl : ':' ∉ tl := fun hm => hnc (by simp [hm])
    rw [List.cons_append, splitOnColon, if_neg hc, ih b htl]

theorem natDec_no_colon (n : Nat) : ':' ∉ natDec n := by
  intro hm
  have := natDec_digits n ':' hm
  revert this; decide

/-- The timestamp parsed back out of a well-formed challenge string: for an
identity free of `':'`, the `split(':')[1]` field is exactly the issuance
seconds string. -/
theorem messageTimeOf_requestOwnership (address : String) (t : Nat)
    (h : ':' ∉ address.data) :
    messageTimeOf (requestOwnership address t) = some (t : Int) := by
  rw [messageTimeOf, requestOwnership]
  have hdata : (address ++ ":" ++ String.mk (natDec t) ++ ":starRegistry").data
      = address.data ++ ':' :: (natDec t ++ ':' :: "starRegistry".data) := by
    simp [String.data_append]
  rw [hdata, splitOnColon_append _ _ h,
    splitOnColon_append _ _ (natDec_no_colon t)]
  simp only [List.get?]
  rw [show natDec t = natDec t ++ [] by simp, parseIntJS_natDec t [] (by simp [noDigitStart])]

/-- The freshness check on a well-formed challenge: exactly
`now - issuedAt < 300`. -/
theorem freshCheck_requestOwnership (address : String) (t now : Nat)
    (h : ':' ∉ address.data) :
    freshCheck (requestOwnership address t) now = decide ((now : Int) - t < 300) := by
  rw [freshCheck, messageTimeOf_requestOwnership address t h]

/-! ## Hex round trip -/

theorem hexVal_hexDigit {d : Nat} (h : d < 16) : hexVal (hexDigit d) = some d := by
  interval_cases d <;> decide

theorem bytesOfHex_hexOfBytes : ∀ (bs : List Nat), (∀ b ∈ bs, b < 256) →
    bytesOfHex (hexOfBytes bs) = bs := by
  intro bs
  induction bs with
  | nil => intro _; rfl
  | cons b tl ih =>
    intro hb
    have hb256 : b < 256 := hb b (by simp)
    rw [hexOfBytes, bytesOfHex]
    simp only [hexVal_hexDigit (show b / 16 < 16 by omega),
      hexVal_hexDigit (show b % 16 < 16 by omega)]
    rw [ih (fun x hx => hb x (by simp [hx]))]
    congr 1
    omega

/-! ## UTF-8 and the `hex2ascii` mangle -/

theorem utf8EncodeChar_lt_256 (c : Char) : ∀ b ∈ utf8EncodeChar c, b < 256 := by
  have hlt := char_toNat_lt c
  intro b hb
  rw [utf8EncodeChar] at hb
  split at hb <;> [skip; split at hb] <;> [skip; skip; split at hb] <;>
    simp_all <;> omega

theorem utf8Encode_lt_256 (cs : List Char) : ∀ b ∈ utf8Encode cs, b < 256 := by
  intro b hb
  rw [utf8Encode, List.mem_flatMap] at hb
  obtain ⟨c, _, hbc⟩ := hb
  exact utf8EncodeChar_lt_256 c b hbc

theorem latin1_utf8 (cs : List Char) : latin1OfBytes (utf8Encode cs) = mangleL cs := by
  rw [latin1OfBytes, utf8Encode, mangleL, List.map_flatMap]
  rfl

theorem mangleChar_ascii {c : Char} (h : c.toNat < 128) : mangleChar c = [c] := by
  rw [mangleChar, utf8EncodeChar]
  simp only [h, if_pos]
  simp [Char.ofNat_toNat]

theorem mangleL_ascii : ∀ (cs : List Char), (∀ c ∈ cs, c.toNat < 128) → mangleL cs = cs := by
  intro cs
  induction cs with
  | nil => intro _; rfl
  | cons c tl ih =>
    intro h
    rw [mangleL, List.flatMap_cons, mangleChar_ascii (h c (by simp))]
    rw [mangleL] at ih
    rw [ih (fun x hx => h x (by simp [hx]))]
    rfl

theorem mangleChar_high {c : Char} (h : 128 ≤ c.toNat) :
    ∀ d ∈ mangleChar c, 128 ≤ d.toNat ∧ d.toNat < 256 := by
  have hlt := char_toNat_lt c
  intro d hd
  rw [mangleChar, List.mem_map] at hd
  obtain ⟨b, hb, hbd⟩ := hd
  have hb256 : b < 256 ∧ 128 ≤ b := by
    rw [utf8EncodeChar] at hb
    split at hb
    · omega
    · split at hb <;> [skip; split at hb] <;> simp_all <;> omega
  subst hbd
  rw [char_toNat_ofNat b (by omega)]
  omega

theorem hexDigit_toNat {d : Nat} (h : d < 16) :
    (hexDigit d).toNat = if d < 10 then 48 + d else 87 + d := by
  rw [hexDigit]
  split <;> rw [char_toNat_ofNat _ (by omega)]

theorem escChar_plain {c : Char} (h32 : 32 ≤ c.toNat) (hq : c ≠ '"') (hb : c ≠ '\\') :
    escChar c = [c] := by
  have hne : ∀ d : Char, c.toNat ≠ d.toNat → c ≠ d := fun d hd => char_ne_of_toNat_ne hd
  rw [escChar, if_neg hq, if_neg hb,
    if_neg (hne '\x08' (by simp; omega)), if_neg (hne '\x09' (by simp; omega)),
    if_neg (hne '\x0a' (by simp; omega)), if_neg (hne '\x0c' (by simp; omega)),
    if_neg (hne '\x0d' (by simp; omega)), if_neg (by omega)]

theorem escL_id : ∀ (l : List Char), (∀ d ∈ l, escChar d = [d]) → escL l = l := by
  intro l
  induction l with
  | nil => intro _; rfl
  | cons c tl ih =>
    intro h
    rw [escL, List.flatMap_cons, h c (by simp)]
    rw [escL] at ih
    rw [ih (fun d hd => h d (by simp [hd]))]
    rfl

theorem mangle_escChar (c : Char) : mangleL (escChar c) = escL (mangleChar c) := by
  by_cases hq : c = '"'
  · subst hq; decide
  by_cases hb : c = '\\'
  · subst hb; decide
  by_cases h8 : c = '\x08'
  · subst h8; decide
  by_cases h9 : c = '\x09'
  · subst h9; decide
  by_cases ha : c = '\x0a'
  · subst ha; decide
  by_cases hc : c = '\x0c'
  · subst hc; decide
  by_cases hd : c = '\x0d'
  · subst hd; decide
  by_cases h32 : c.toNat < 32
  · -- the `\u00XX` escape: all six characters are ASCII
    rw [escChar, if_neg hq, if_neg hb, if_neg h8, if_neg h9, if_neg ha, if_neg hc,
      if_neg hd, if_pos h32]
    have hhi : (hexDigit (c.toNat / 16)).toNat < 128 := by
      rw [hexDigit_toNat (by omega)]; split <;> omega
    have hlo : (hexDigit (c.toNat % 16)).toNat < 128 := by
      rw [hexDigit_toNat (by omega)]; split <;> omega
    rw [mangleL_ascii _ (by
      intro d hdm
      simp only [List.mem_cons, List.not_mem_nil, or_false] at hdm
      rcases hdm with rfl | rfl | rfl | rfl | rfl | rfl <;> first | decide | exact hhi | exact hlo)]
    rw [mangleChar_ascii (by omega), escL, List.flatMap_cons, List.flatMap_nil,
      List.append_nil, escChar, if_neg hq, if_neg hb, if_neg h8, if_neg h9, if_neg ha,
      if_neg hc, if_neg hd, if_pos h32]
  by_cases hhigh : c.toNat < 128
  · -- plain ASCII character
    rw [escChar_plain (by omega) hq hb, mangleChar_ascii hhigh, escL, List.flatMap_cons,
      List.flatMap_nil, List.append_nil, escChar_plain (by omega) hq hb, mangleL,
      List.flatMap_cons, List.flatMap_nil, List.append_nil, mangleChar_ascii hhigh]
  · -- non-ASCII character: garbled into bytes ≥ 128, none of which is escaped
    rw [escChar_plain (by omega) hq hb, mangleL, List.flatMap_cons, List.flatMap_nil,
      List.append_nil]
    rw [escL_id (mangleChar c) (by
      intro d hdm
      have hr := mangleChar_high (by omega) d hdm
      exact escChar_plain (by omega) (char_ne_of_toNat_ne (by simp; omega))
        (char_ne_of_toNat_ne (by simp; omega)))]

theorem mangle_escL : ∀ (cs : List Char), mangleL (escL cs) = escL (mangleL cs) := by
  intro cs
  induction cs with
  | nil => rfl
  | cons c tl ih =>
    rw [escL, List.flatMap_cons, mangleL, List.flatMap_append, mangleL, List.flatMap_cons,
      escL, List.flatMap_append]
    rw [show (escChar c).flatMap mangleChar = mangleL (escChar c) from rfl,
      show (tl.flatMap escChar).flatMap mangleChar = mangleL (escL tl) from rfl,
      show (mangleChar c).flatMap escChar = escL (mangleChar c) from rfl,
      show (tl.flatMap mangleChar).flatMap escChar = escL (mangleL tl) from rfl,
      mangle_escChar c, ih]

theorem mangle_quoteL (cs : List Char) : mangleL (quoteL cs) = quoteL (mangleL cs) := by
  have h := mangle_escL cs
  have hq : mangleChar '"' = ['"'] := by decide
  simp only [quoteL, mangleL, escL, List.flatMap_append, List.flatMap_cons,
    List.flatMap_nil, List.append_nil] at h ⊢
  rw [hq, h]
  simp

theorem mangle_intDec (n : Int) : mangleL (intDec n) = intDec n := by
  apply mangleL_ascii
  intro c hc
  rw [intDec] at hc
  split at hc
  · simp only [List.mem_cons] at hc
    rcases hc with rfl | hc
    · decide
    · have := natDec_digits _ c hc; omega
  · have := natDec_digits _ c hc; omega

theorem json_sizeOf_pos (v : Json) : 0 < sizeOf v := by
  cases v <;> simp_arith

theorem jsonList_sizeOf_pos (xs : JsonList) : 0 < sizeOf xs := by
  cases xs <;> simp_arith

theorem jsonFields_sizeOf_pos (fs : JsonFields) : 0 < sizeOf fs := by
  cases fs <;> simp_arith

theorem mangle_stringify_aux : ∀ k : Nat,
    (∀ v : Json, sizeOf v ≤ k → mangleL (stringifyVal v) = stringifyVal (mangleJson v)) ∧
    (∀ xs : JsonList, sizeOf xs ≤ k →
      mangleL (stringifyElems xs) = stringifyElems (mangleElems xs)) ∧
    (∀ fs : JsonFields, sizeOf fs ≤ k →
      mangleL (stringifyMembers fs) = stringifyMembers (mangleMembers fs)) := by
  intro k
  induction k with
  | zero =>
    refine ⟨fun v hv => ?_, fun xs hxs => ?_, fun fs hfs => ?_⟩
    · exact absurd hv (by have := json_sizeOf_pos v; omega)
    · exact absurd hxs (by have := jsonList_sizeOf_pos xs; omega)
    · exact absurd hfs (by have := jsonFields_sizeOf_pos fs; omega)
  | succ k ih =>
    obtain ⟨ihv, ihl, ihf⟩ := ih
    refine ⟨fun v hv => ?_, fun xs hxs => ?_, fun fs hfs => ?_⟩
    · cases v with
      | null => decide
      | bool b => cases b <;> decide
      | num n => simpa [stringifyVal, mangleJson] using mangle_intDec n
      | str s => simpa [stringifyVal, mangleJson] using mangle_quoteL s.data
      | arr xs =>
        have hxs : sizeOf xs ≤ k := by simp at hv; omega
        have h2 := ihl xs hxs
        simp only [stringifyVal, mangleJson, mangleL, List.flatMap_append,
          List.flatMap_cons, List.flatMap_nil, List.append_nil] at h2 ⊢
        rw [show mangleChar '[' = ['['] by decide, show mangleChar ']' = [']'] by decide, h2]
        simp
      | obj fs =>
        have hfs : sizeOf fs ≤ k := by simp at hv; omega
        have h2 := ihf fs hfs
        simp only [stringifyVal, mangleJson, mangleL, List.flatMap_append,
          List.flatMap_cons, List.flatMap_nil, List.append_nil] at h2 ⊢
        rw [show mangleChar '\x7b' = ['\x7b'] by decide,
          show mangleChar '\x7d' = ['\x7d'] by decide, h2]
        simp
    · cases xs with
      | nil => decide
      | cons v tl =>
        have hv2 : sizeOf v ≤ k := by simp at hxs; omega
        have h1 := ihv v hv2
        cases tl with
        | nil =>
          simp only [stringifyElems, mangleElems]
          exact h1
        | cons v2 tl2 =>
          have htl : sizeOf (JsonList.cons v2 tl2) ≤ k := by simp at hxs ⊢; omega
          have h2 := ihl _ htl
          simp only [stringifyElems, mangleElems, mangleL, List.flatMap_append,
            List.flatMap_cons, List.flatMap_nil, List.append_nil] at h1 h2 ⊢
          rw [show mangleChar ',' = [','] by decide, h1, h2]
          simp
    · cases fs with
      | nil => decide
      | cons key v tl =>
        have hv2 : sizeOf v ≤ k := by simp at hfs; omega
        have h1 := ihv v hv2
        have hkey := mangle_quoteL key.data
        cases tl with
        | nil =>
          simp only [stringifyMembers, mangleMembers, mangleL, List.flatMap_append,
            List.flatMap_cons, List.flatMap_nil, List.append_nil] at h1 hkey ⊢
          rw [show mangleChar ':' = [':'] by decide, h1, hkey]
          simp
        | cons key2 v2 tl2 =>
          have htl : sizeOf (JsonFields.cons key2 v2 tl2) ≤ k := by simp at hfs ⊢; omega
          have h2 := ihf _ htl
          simp only [stringifyMembers, mangleMembers, mangleL, List.flatMap_append,
            List.flatMap_cons, List.flatMap_nil, List.append_nil] at h1 h2 hkey ⊢
          rw [show mangleChar ':' = [':'] by decide, show mangleChar ',' = [','] by decide,
            h1, hkey, h2]
          simp

theorem mangle_stringify (v : Json) :
    mangleL (stringifyVal v) = stringifyVal (mangleJson v) :=
  (mangle_stringify_aux (sizeOf v)).1 v (by omega)

theorem ascii_mangle_id_aux : ∀ k : Nat,
    (∀ v : Json, sizeOf v ≤ k → asciiVal v = true → mangleJson v = v) ∧
    (∀ xs : JsonList, sizeOf xs ≤ k → asciiElems xs = true → mangleElems xs = xs) ∧
    (∀ fs : JsonFields, sizeOf fs ≤ k → asciiMembers fs = true → mangleMembers fs = fs) := by
  intro k
  induction k with
  | zero =>
    refine ⟨fun v hv _ => ?_, fun xs hxs _ => ?_, fun fs hfs _ => ?_⟩
    · exact absurd hv (by have := json_sizeOf_pos v; omega)
    · exact absurd hxs (by have := jsonList_sizeOf_pos xs; omega)
    · exact absurd hfs (by have := jsonFields_sizeOf_pos fs; omega)
  | succ k ih =>
    obtain ⟨ihv, ihl, ihf⟩ := ih
    refine ⟨fun v hv ha => ?_, fun xs hxs ha => ?_, fun fs hfs ha => ?_⟩
    · cases v with
      | null => rfl
      | bool b => rfl
      | num n => rfl
      | str s =>
        simp only [asciiVal, List.all_eq_true, decide_eq_true_eq] at ha
        simp only [mangleJson, Json.str.injEq]
        rw [mangleL_ascii s.data ha]
      | arr xs =>
        simp only [asciiVal] at ha
        simp only [mangleJson, Json.arr.injEq]
        exact ihl xs (by simp at hv; omega) ha
      | obj fs =>
        simp only [asciiVal] at ha
        simp only [mangleJson, Json.obj.injEq]
        exact ihf fs (by simp at hv; omega) ha
    · cases xs with
      | nil => rfl
      | cons v tl =>
        simp only [asciiElems, Bool.and_eq_true] at ha
        simp only [mangleElems, JsonList.cons.injEq]
        exact ⟨ihv v (by simp at hxs; omega) ha.1, ihl tl (by simp at hxs; omega) ha.2⟩
    · cases fs with
      | nil => rfl
      | cons key v tl =>
        simp only [asciiMembers, Bool.and_eq_true, List.all_eq_true, decide_eq_true_eq] at ha
        simp only [mangleMembers, JsonFields.cons.injEq]
        refine ⟨?_, ihv v (by simp at hfs; omega) ha.1.2, ihf tl (by simp at hfs; omega) ha.2⟩
        rw [mangleL_ascii key.data ha.1.1]

theorem ascii_mangle_id (v : Json) (h : asciiVal v = true) : mangleJson v = v :=
  (ascii_mangle_id_aux (sizeOf v)).1 v (by omega) h

/-! ## Parser round trip: string bodies -/

theorem parseStrBody_quote (fuel : Nat) (cs : List Char) :
    parseStrBody (fuel + 1) ('"' :: cs) = some ([], cs) := by
  simp only [parseStrBody]
  rw [if_pos trivial]

theorem parseStrBody_escTwo (fuel : Nat) (e d : Char) (cs : List Char)
    (hed : escDecode e = some d) :
    parseStrBody (fuel + 1) ('\\' :: e :: cs)
      = (parseStrBody fuel cs).map (fun p => (d :: p.1, p.2)) := by
  simp only [parseStrBody]
  rw [if_neg (show ¬('\\' = '"') by decide), if_pos trivial, hed]

theorem parseStrBody_plain (fuel : Nat) (c : Char) (cs : List Char)
    (hq : ¬ c = '"') (hb : ¬ c = '\\') (h32 : ¬ c.toNat < 32) :
    parseStrBody (fuel + 1) (c :: cs)
      = (parseStrBody fuel cs).map (fun p => (c :: p.1, p.2)) := by
  simp only [parseStrBody]
  rw [if_neg hq, if_neg hb, if_neg h32]

theorem parseStrBody_uEsc (fuel : Nat) (c : Char) (cs : List Char) (h32 : c.toNat < 32) :
    parseStrBody (fuel + 1) ('\\' :: 'u' :: '0' :: '0' ::
        hexDigit (c.toNat / 16) :: hexDigit (c.toNat % 16) :: cs)
      = (parseStrBody fuel cs).map (fun p => (c :: p.1, p.2)) := by
  simp only [parseStrBody]
  rw [if_neg (show ¬('\\' = '"') by decide), if_pos trivial,
    show escDecode 'u' = none from rfl, if_pos trivial,
    hexVal_hexDigit (show c.toNat / 16 < 16 by omega),
    hexVal_hexDigit (show c.toNat % 16 < 16 by omega),
    show hexVal '0' = some 0 from rfl]
  have hc : ((0 * 16 + 0) * 16 + c.toNat / 16) * 16 + c.toNat % 16 = c.toNat := by omega
  simp only [hc, Char.ofNat_toNat]
  rw [if_pos (by omega)]

theorem parseStrBody_escL : ∀ (fuel : Nat) (s rest : List Char), s.length < fuel →
    parseStrBody fuel (escL s ++ '"' :: rest) = some (s, rest) := by
  intro fuel
  induction fuel with
  | zero => omega
  | succ fuel ih =>
    intro s rest hlen
    cases s with
    | nil =>
      rw [show escL [] = [] from rfl, List.nil_append, parseStrBody_quote]
    | cons c tl =>
      have hrec := ih tl rest (by simp at hlen; omega)
      rw [escL, List.flatMap_cons, List.append_assoc,
        show tl.flatMap escChar = escL tl from rfl]
      by_cases hq : c = '"'
      · subst hq
        rw [show escChar '"' = ['\\', '"'] from rfl, List.cons_append, List.cons_append,
          List.nil_append, parseStrBody_escTwo fuel '"' '"' _ (by decide), hrec]
        rfl
      by_cases hb : c = '\\'
      · subst hb
        rw [show escChar '\\' = ['\\', '\\'] from rfl, List.cons_append, List.cons_append,
          List.nil_append, parseStrBody_escTwo fuel '\\' '\\' _ (by decide), hrec]
        rfl
      by_cases h8 : c = '\x08'
      · subst h8
        rw [show escChar '\x08' = ['\\', 'b'] from rfl, List.cons_append, List.cons_append,
          List.nil_append, parseStrBody_escTwo fuel 'b' '\x08' _ (by decide), hrec]
        rfl
      by_cases h9 : c = '\x09'
      · subst h9
        rw [show escChar '\x09' = ['\\', 't'] from rfl, List.cons_append, List.cons_append,
          List.nil_append, parseStrBody_escTwo fuel 't' '\x09' _ (by decide), hrec]
        rfl
      by_cases ha : c = '\x0a'
      · subst ha
        rw [show escChar '\x0a' = ['\\', 'n'] from rfl, List.cons_append, List.cons_append,
          List.nil_append, parseStrBody_escTwo fuel 'n' '\x0a' _ (by decide), hrec]
        rfl
      by_cases hcf : c = '\x0c'
      · subst hcf
        rw [show escChar '\x0c' = ['\\', 'f'] from rfl, List.cons_append, List.cons_append,
          List.nil_append, parseStrBody_escTwo fuel 'f' '\x0c' _ (by decide), hrec]
        rfl
      by_cases hdr : c = '\x0d'
      · subst hdr
        rw [show escChar '\x0d' = ['\\', 'r'] from rfl, List.cons_append, List.cons_append,
          List.nil_append, parseStrBody_escTwo fuel 'r' '\x0d' _ (by decide), hrec]
        rfl
      by_cases h32 : c.toNat < 32
      · rw [escChar, if_neg hq, if_neg hb, if_neg h8, if_neg h9, if_neg ha, if_neg hcf,
          if_neg hdr, if_pos h32]
        simp only [List.cons_append, List.nil_append]
        rw [parseStrBody_uEsc fuel c _ h32, hrec]
        rfl
      · rw [escChar_plain (by omega) hq hb, List.cons_append, List.nil_append,
          parseStrBody_plain fuel c _ hq hb (by omega), hrec]
        rfl

/-! ## Parser round trip: values -/

theorem stringMk_data (s : String) : String.mk s.data = s := rfl

theorem escL_len : ∀ s : List Char, s.length ≤ (escL s).length := by
  intro s
  induction s with
  | nil => simp [escL]
  | cons c tl ih =>
    rw [escL, List.flatMap_cons, List.length_append, List.length_cons]
    have hc : 1 ≤ (escChar c).length := by
      rw [escChar]
      repeat' split
      all_goals simp
    rw [escL] at ih
    omega

theorem natDec_shape (n : Nat) :
    ∃ d ds, natDec n = d :: ds ∧ 48 ≤ d.toNat ∧ d.toNat ≤ 57 := by
  cases h : natDec n with
  | nil => exact absurd h (natDec_ne_nil n)
  | cons d ds =>
    refine ⟨d, ds, rfl, ?_⟩
    have := natDec_digits n d (by rw [h]; simp)
    exact this

theorem noDigitStart_nil : noDigitStart [] := by
  intro c hc
  simp at hc

theorem noDigitStart_cons {c : Char} (h : c.isDigit = false) (l : List Char) :
    noDigitStart (c :: l) := by
  intro d hd
  simp only [List.head?_cons, Option.mem_def, Option.some.injEq] at hd
  subst hd
  exact h

theorem parseVal_null (fuel : Nat) (rest : List Char) :
    parseVal (fuel + 1) ('n' :: 'u' :: 'l' :: 'l' :: rest) = some (.null, rest) := by
  simp only [parseVal]
  rw [if_pos trivial]

theorem parseVal_true (fuel : Nat) (rest : List Char) :
    parseVal (fuel + 1) ('t' :: 'r' :: 'u' :: 'e' :: rest) = some (.bool true, rest) := by
  simp only [parseVal]
  rw [if_neg (by decide), if_pos trivial]

theorem parseVal_false (fuel : Nat) (rest : List Char) :
    parseVal (fuel + 1) ('f' :: 'a' :: 'l' :: 's' :: 'e' :: rest) = some (.bool false, rest) := by
  simp only [parseVal]
  rw [if_neg (by decide), if_neg (by decide), if_pos trivial]

theorem parseVal_quote (fuel : Nat) (cs : List Char) :
    parseVal (fuel + 1) ('"' :: cs)
      = match parseStrBody cs.length cs with
        | some (s, r) => some (.str (String.mk s), r)
        | none => none := by
  simp only [parseVal]
  rw [if_neg (by decide), if_neg (by decide), if_neg (by decide), if_pos trivial]

theorem parseVal_arrNil (fuel : Nat) (rest : List Char) :
    parseVal (fuel + 1) ('[' :: ']' :: rest) = some (.arr .nil, rest) := by
  simp only [parseVal]
  rw [if_neg (by decide), if_neg (by decide), if_neg (by decide), if_neg (by decide),
    if_pos trivial, if_pos trivial]

theorem parseVal_arrCons (fuel : Nat) (c2 : Char) (r2 : List Char) (h : ¬ c2 = ']') :
    parseVal (fuel + 1) ('[' :: c2 :: r2)
      = match parseElems fuel (c2 :: r2) with
        | some (xs, r) => some (.arr xs, r)
        | none => none := by
  simp only [parseVal]
  rw [if_neg (by decide), if_neg (by decide), if_neg (by decide), if_neg (by decide),
    if_pos trivial, if_neg h]

theorem parseVal_objNil (fuel : Nat) (rest : List Char) :
    parseVal (fuel + 1) ('\x7b' :: '\x7d' :: rest) = some (.obj .nil, rest) := by
  simp only [parseVal]
  rw [if_neg (by decide), if_neg (by decide), if_neg (by decide), if_neg (by decide),
    if_neg (by decide), if_pos trivial, if_pos trivial]

theorem parseVal_objCons (fuel : Nat) (c2 : Char) (r2 : List Char) (h : ¬ c2 = '\x7d') :
    parseVal (fuel + 1) ('\x7b' :: c2 :: r2)
      = match parseMembers fuel (c2 :: r2) with
        | some (fs, r) => some (.obj fs, r)
        | none => none := by
  simp only [parseVal]
  rw [if_neg (by decide), if_neg (by decide), if_neg (by decide), if_neg (by decide),
    if_neg (by decide), if_pos trivial, if_neg h]

theorem parseVal_neg (fuel : Nat) (rest : List Char) :
    parseVal (fuel + 1) ('-' :: rest)
      = match parseDigits rest with
        | some (n, r) => some (.num (-(n : Int)), r)
        | none => none := by
  simp only [parseVal]
  rw [if_neg (by decide), if_neg (by decide), if_neg (by decide), if_neg (by decide),
    if_neg (by decide), if_neg (by decide), if_pos trivial]

theorem parseVal_digit (fuel : Nat) (c : Char) (rest : List Char)
    (h48 : 48 ≤ c.toNat) (h57 : c.toNat ≤ 57) :
    parseVal (fuel + 1) (c :: rest)
      = match parseDigits (c :: rest) with
        | some (n, r) => some (.num (n : Int), r)
        | none => none := by
  have hne : ∀ d : Char, d.toNat < 48 ∨ 57 < d.toNat → ¬ c = d := by
    intro d hd he; subst he; omega
  simp only [parseVal]
  rw [if_neg (hne 'n' (by decide)), if_neg (hne 't' (by decide)),
    if_neg (hne 'f' (by decide)), if_neg (hne '"' (by decide)),
    if_neg (hne '[' (by decide)), if_neg (hne '\x7b' (by decide)),
    if_neg (hne '-' (by decide)), if_pos ((char_isDigit_iff c).2 ⟨h48, h57⟩)]


theorem stringify_starts (v : Json) :
    ∃ c tl, stringifyVal v = c :: tl ∧
      (c = 'n' ∨ c = 't' ∨ c = 'f' ∨ c = '"' ∨ c = '[' ∨ c = '\x7b' ∨ c = '-' ∨
        (48 ≤ c.toNat ∧ c.toNat ≤ 57)) := by
  cases v with
  | null => exact ⟨'n', _, rfl, by simp⟩
  | bool b =>
    cases b
    · exact ⟨'f', _, rfl, by simp⟩
    · exact ⟨'t', _, rfl, by simp⟩
  | num n =>
    rw [show stringifyVal (.num n) = intDec n from rfl, intDec]
    by_cases hneg : n < 0
    · rw [if_pos hneg]
      exact ⟨'-', _, rfl, by simp⟩
    · rw [if_neg hneg]
      obtain ⟨d, ds, hshape, h48, h57⟩ := natDec_shape n.toNat
      exact ⟨d, ds, hshape, by tauto⟩
  | str s => exact ⟨'"', escL s.data ++ ['"'], rfl, by simp⟩
  | arr xs => exact ⟨'[', stringifyElems xs ++ [']'], rfl, by simp⟩
  | obj fs => exact ⟨'\x7b', stringifyMembers fs ++ ['\x7d'], rfl, by simp⟩

theorem stringify_len_pos (v : Json) : 1 ≤ (stringifyVal v).length := by
  obtain ⟨c, t, hsh, _⟩ := stringify_starts v
  rw [hsh]; simp

theorem elems_starts (v : Json) (tl : JsonList) :
    ∃ c0 tl0, stringifyElems (.cons v tl) = c0 :: tl0 ∧ ¬ c0 = ']' := by
  obtain ⟨c, t, hsh, hst⟩ := stringify_starts v
  have hc : ¬ c = ']' := by
    rcases hst with h | h | h | h | h | h | h | h
    · subst h; decide
    · subst h; decide
    · subst h; decide
    · subst h; decide
    · subst h; decide
    · subst h; decide
    · subst h; decide
    · intro he; subst he; revert h; decide
  cases tl with
  | nil => exact ⟨c, t, by simp only [stringifyElems]; rw [hsh], hc⟩
  | cons v2 tl2 =>
    refine ⟨c, t ++ ',' :: stringifyElems (.cons v2 tl2), ?_, hc⟩
    simp only [stringifyElems]
    rw [hsh]
    simp

theorem parse_roundtrip_aux : ∀ fuel : Nat,
    (∀ (v : Json) (rest : List Char), (stringifyVal v).length < fuel → noDigitStart rest →
      parseVal fuel (stringifyVal v ++ rest) = some (v, rest)) ∧
    (∀ (v : Json) (tl : JsonList) (rest : List Char),
      (stringifyElems (.cons v tl)).length + 2 ≤ fuel →
      parseElems fuel (stringifyElems (.cons v tl) ++ ']' :: rest) = some (.cons v tl, rest)) ∧
    (∀ (k : String) (v : Json) (tl : JsonFields) (rest : List Char),
      (stringifyMembers (.cons k v tl)).length + 2 ≤ fuel →
      parseMembers fuel (stringifyMembers (.cons k v tl) ++ '\x7d' :: rest)
        = some (.cons k v tl, rest)) := by
  intro fuel
  induction fuel with
  | zero =>
    refine ⟨fun v rest h _ => by omega, fun v tl rest h => by omega, fun k v tl rest h => by omega⟩
  | succ fuel ih =>
    obtain ⟨ihv, ihl, ihf⟩ := ih
    refine ⟨fun v rest hlen hrest => ?_, fun v tl rest hlen => ?_, fun k v tl rest hlen => ?_⟩
    · -- values
      cases v with
      | null =>
        rw [show stringifyVal .null ++ rest = 'n' :: 'u' :: 'l' :: 'l' :: rest from rfl,
          parseVal_null]
      | bool b =>
        cases b
        · rw [show stringifyVal (.bool false) ++ rest = 'f' :: 'a' :: 'l' :: 's' :: 'e' :: rest from rfl,
            parseVal_false]
        · rw [show stringifyVal (.bool true) ++ rest = 't' :: 'r' :: 'u' :: 'e' :: rest from rfl,
            parseVal_true]
      | num n =>
        rw [show stringifyVal (.num n) = intDec n from rfl, intDec]
        by_cases hneg : n < 0
        · rw [if_pos hneg, List.cons_append, parseVal_neg, parseDigits_natDec _ _ hrest]
          have habs : -((n.natAbs : Int)) = n := by omega
          show some (Json.num (-((n.natAbs : Int))), rest) = some (Json.num n, rest)
          rw [habs]
        · rw [if_neg hneg]
          obtain ⟨d, ds, hshape, h48, h57⟩ := natDec_shape n.toNat
          rw [hshape, List.cons_append, parseVal_digit fuel d _ h48 h57,
            show d :: (ds ++ rest) = (d :: ds) ++ rest by simp, ← hshape,
            parseDigits_natDec _ _ hrest]
          have htn : ((n.toNat : Int)) = n := Int.toNat_of_nonneg (by omega)
          show some (Json.num ((n.toNat : Int)), rest) = some (Json.num n, rest)
          rw [htn]
      | str s =>
        rw [show stringifyVal (.str s) ++ rest = '"' :: (escL s.data ++ '"' :: rest) by
            simp [stringifyVal, quoteL], parseVal_quote]
        have hblen : s.data.length < (escL s.data ++ '"' :: rest).length := by
          have := escL_len s.data
          simp only [List.length_append, List.length_cons]
          omega
        rw [parseStrBody_escL _ _ _ hblen]
      | arr xs =>
        cases xs with
        | nil =>
          rw [show stringifyVal (.arr .nil) ++ rest = '[' :: ']' :: rest from rfl, parseVal_arrNil]
        | cons v tl =>
          obtain ⟨c0, tl0, hsh, hc0⟩ := elems_starts v tl
          have hlen2 : (stringifyElems (.cons v tl)).length + 2 ≤ fuel := by
            rw [show stringifyVal (.arr (.cons v tl))
                = '[' :: stringifyElems (.cons v tl) ++ [']'] from rfl] at hlen
            simp only [List.length_append, List.length_cons, List.length_singleton] at hlen
            omega
          rw [show stringifyVal (.arr (.cons v tl)) ++ rest
              = '[' :: (stringifyElems (.cons v tl) ++ ']' :: rest) by
              simp [stringifyVal]]
          rw [hsh, List.cons_append, parseVal_arrCons fuel c0 _ hc0, ← List.cons_append, ← hsh,
            ihl v tl rest hlen2]
      | obj fs =>
        cases fs with
        | nil =>
          rw [show stringifyVal (.obj .nil) ++ rest = '\x7b' :: '\x7d' :: rest from rfl,
            parseVal_objNil]
        | cons k v tl =>
          have hlen2 : (stringifyMembers (.cons k v tl)).length + 2 ≤ fuel := by
            rw [show stringifyVal (.obj (.cons k v tl))
                = '\x7b' :: stringifyMembers (.cons k v tl) ++ ['\x7d'] from rfl] at hlen
            simp only [List.length_append, List.length_cons, List.length_singleton] at hlen
            omega
          have hsh : ∃ tl0, stringifyMembers (.cons k v tl) = '"' :: tl0 := by
            cases tl with
            | nil => exact ⟨escL k.data ++ '"' :: ':' :: stringifyVal v, by
                simp only [stringifyMembers]; simp [quoteL]⟩
            | cons k2 v2 tl2 => exact ⟨escL k.data ++ '"' :: ':' :: (stringifyVal v ++
                ',' :: stringifyMembers (.cons k2 v2 tl2)), by
                simp only [stringifyMembers]; simp [quoteL]⟩
          obtain ⟨tl0, hsh⟩ := hsh
          rw [show stringifyVal (.obj (.cons k v tl)) ++ rest
              = '\x7b' :: (stringifyMembers (.cons k v tl) ++ '\x7d' :: rest) by
              simp [stringifyVal]]
          rw [hsh, List.cons_append, parseVal_objCons fuel '"' _ (by decide),
            ← List.cons_append, ← hsh, ihf k v tl rest hlen2]
    · -- array elements
      cases tl with
      | nil =>
        have hlen1 : (stringifyVal v).length < fuel := by
          simp only [stringifyElems] at hlen
          omega
        simp only [parseElems, stringifyElems]
        rw [ihv v (']' :: rest) hlen1 (noDigitStart_cons (by decide) rest)]
        rfl
      | cons v2 tl2 =>
        have hv1 := stringify_len_pos v
        have hlen1 : (stringifyVal v).length < fuel := by
          simp only [stringifyElems, List.length_append, List.length_cons] at hlen
          omega
        have hlen2 : (stringifyElems (.cons v2 tl2)).length + 2 ≤ fuel := by
          simp only [stringifyElems, List.length_append, List.length_cons] at hlen
          omega
        simp only [parseElems, stringifyElems]
        rw [List.append_assoc, List.cons_append,
          ihv v _ hlen1 (noDigitStart_cons (by decide) _)]
        show (match parseElems fuel (stringifyElems (.cons v2 tl2) ++ ']' :: rest) with
              | some (tl, r3) => some (JsonList.cons v tl, r3)
              | none => none) = some (JsonList.cons v (JsonList.cons v2 tl2), rest)
        rw [ihl v2 tl2 rest hlen2]
    · -- object members
      cases tl with
      | nil =>
        simp only [stringifyMembers] at hlen ⊢
        have hsv : (stringifyVal v).length < fuel := by
          simp only [quoteL, List.length_append, List.length_cons] at hlen
          omega
        rw [show (quoteL k.data ++ ':' :: stringifyVal v) ++ '\x7d' :: rest
            = '"' :: (escL k.data ++ '"' :: (':' :: (stringifyVal v ++ '\x7d' :: rest))) by
            simp [quoteL]]
        simp only [parseMembers]
        rw [if_pos trivial]
        have hblen : k.data.length < (escL k.data ++ '"' :: (':' :: (stringifyVal v ++ '\x7d' :: rest))).length := by
          have := escL_len k.data
          simp only [List.length_append, List.length_cons]
          omega
        rw [parseStrBody_escL _ _ _ hblen]
        show (match parseVal fuel (stringifyVal v ++ '\x7d' :: rest) with
              | some (v, r2) =>
                match r2 with
                | ',' :: r3 =>
                  match parseMembers fuel r3 with
                  | some (tl, r4) => some (JsonFields.cons (String.mk k.data) v tl, r4)
                  | none => none
                | '\x7d' :: r3 => some (JsonFields.cons (String.mk k.data) v JsonFields.nil, r3)
                | x => none
              | none => none) = some (JsonFields.cons k v JsonFields.nil, rest)
        rw [ihv v _ hsv (noDigitStart_cons (by decide) _), stringMk_data]
        rfl
      | cons k2 v2 tl2 =>
        simp only [stringifyMembers] at hlen ⊢
        have hsv : (stringifyVal v).length < fuel := by
          simp only [quoteL, List.length_append, List.length_cons] at hlen
          omega
        have hlen2 : (stringifyMembers (.cons k2 v2 tl2)).length + 2 ≤ fuel := by
          have hq2 : 2 ≤ (quoteL k.data).length := by
            simp [quoteL]
          have hv1 := stringify_len_pos v
          simp only [List.length_append, List.length_cons] at hlen ⊢
          omega
        rw [show (quoteL k.data ++ ':' :: stringifyVal v ++ ',' :: stringifyMembers (.cons k2 v2 tl2)) ++ '\x7d' :: rest
            = '"' :: (escL k.data ++ '"' :: (':' :: (stringifyVal v ++
                ',' :: (stringifyMembers (.cons k2 v2 tl2) ++ '\x7d' :: rest)))) by
            simp [quoteL]]
        simp only [parseMembers]
        rw [if_pos trivial]
        have hblen : k.data.length < (escL k.data ++ '"' :: (':' :: (stringifyVal v ++
            ',' :: (stringifyMembers (.cons k2 v2 tl2) ++ '\x7d' :: rest)))).length := by
          have := escL_len k.data
          simp only [List.length_append, List.length_cons]
          omega
        rw [parseStrBody_escL _ _ _ hblen]
        show (match parseVal fuel (stringifyVal v ++
              ',' :: (stringifyMembers (.cons k2 v2 tl2) ++ '\x7d' :: rest)) with
              | some (v, r2) =>
                match r2 with
                | ',' :: r3 =>
                  match parseMembers fuel r3 with
                  | some (tl, r4) => some (JsonFields.cons (String.mk k.data) v tl, r4)
                  | none => none
                | '\x7d' :: r3 => some (JsonFields.cons (String.mk k.data) v JsonFields.nil, r3)
                | x => none
              | none => none) = some (JsonFields.cons k v (JsonFields.cons k2 v2 tl2), rest)
        rw [ihv v _ hsv (noDigitStart_cons (by decide) _)]
        show (match parseMembers fuel (stringifyMembers (.cons k2 v2 tl2) ++ '\x7d' :: rest) with
              | some (tl, r4) => some (JsonFields.cons (String.mk k.data) v tl, r4)
              | none => none) = some (JsonFields.cons k v (JsonFields.cons k2 v2 tl2), rest)
        rw [ihf k2 v2 tl2 rest hlen2, stringMk_data]

/-- `JSON.parse` inverts `JSON.stringify` in the model. -/
theorem jsonParse_stringify (v : Json) :
    jsonParse (String.mk (stringifyVal v)) = some v := by
  rw [jsonParse]
  have h := (parse_roundtrip_aux ((stringifyVal v).length + 1)).1 v [] (by omega) noDigitStart_nil
  rw [List.append_nil] at h
  rw [show (String.mk (stringifyVal v)).data = stringifyVal v from rfl, h]

/-- What the payload codec actually recovers: the encoded value with every
string passed through the UTF-8/`fromCharCode` mangle.  Decoding always
succeeds on encoder output, but only ASCII content survives unchanged. -/
theorem decodePayload_encodeData (v : Json) :
    decodePayload (encodeData v) = some (mangleJson v) := by
  rw [decodePayload, encodeData]
  rw [show (String.mk (hexOfBytes (utf8Encode (stringifyVal v)))).data
      = hexOfBytes (utf8Encode (stringifyVal v)) from rfl]
  rw [bytesOfHex_hexOfBytes _ (utf8Encode_lt_256 _), latin1_utf8, mangle_stringify,
    jsonParse_stringify]

/-- The codec round trip restricted to ASCII content. -/
theorem decodePayload_encodeData_ascii (v : Json) (h : asciiVal v = true) :
    decodePayload (encodeData v) = some v := by
  rw [decodePayload_encodeData, ascii_mangle_id v h]

/-! ## Injectivity of the block digest -/

theorem replicate_sep_inj {c d : Char} (hcd : ¬ c = d) :
    ∀ (n m : Nat) (s t : List Char),
    List.replicate n c ++ d :: s = List.replicate m c ++ d :: t → n = m ∧ s = t := by
  intro n
  induction n with
  | zero =>
    intro m s t h
    cases m with
    | zero => simpa using h
    | succ m =>
      simp only [List.replicate, List.nil_append, List.cons_append, List.cons.injEq] at h
      exact absurd h.1.symm hcd
  | succ n ih =>
    intro m s t h
    cases m with
    | zero =>
      simp only [List.replicate, List.nil_append, List.cons_append, List.cons.injEq] at h
      exact absurd h.1 hcd
    | succ m =>
      simp only [List.replicate_succ, List.cons_append, List.cons.injEq, true_and] at h
      obtain ⟨hnm, hst⟩ := ih m s t h
      exact ⟨by omega, hst⟩

theorem encStrL_cancel {s t r1 r2 : List Char}
    (h : encStrL s ++ r1 = encStrL t ++ r2) : s = t ∧ r1 = r2 := by
  rw [encStrL, encStrL, List.append_assoc, List.append_assoc, List.cons_append,
    List.cons_append] at h
  obtain ⟨hlen, hrest⟩ := replicate_sep_inj (by decide) _ _ _ _ h
  exact List.append_inj hrest hlen

theorem encNat_cancel {n m : Nat} {r1 r2 : List Char}
    (h : encNat n ++ r1 = encNat m ++ r2) : n = m ∧ r1 = r2 := by
  rw [encNat, encNat, List.append_assoc, List.append_assoc, List.singleton_append,
    List.singleton_append] at h
  exact replicate_sep_inj (by decide) _ _ _ _ h

theorem encOptStr_cancel : ∀ {o1 o2 : Option String} {r1 r2 : List Char},
    encOptStr o1 ++ r1 = encOptStr o2 ++ r2 → o1 = o2 ∧ r1 = r2 := by
  intro o1 o2 r1 r2 h
  cases o1 with
  | none =>
    cases o2 with
    | none => simpa using h
    | some t =>
      rw [encOptStr, encOptStr, List.cons_append, List.cons_append] at h
      simp only [List.cons.injEq] at h
      exact absurd h.1 (by decide)
  | some s =>
    cases o2 with
    | none =>
      rw [encOptStr, encOptStr, List.cons_append, List.cons_append] at h
      simp only [List.cons.injEq] at h
      exact absurd h.1 (by decide)
    | some t =>
      rw [encOptStr, encOptStr, List.cons_append, List.cons_append] at h
      simp only [List.cons.injEq, true_and] at h
      obtain ⟨hd, hr⟩ := encStrL_cancel h
      exact ⟨congrArg some (String.ext hd), hr⟩

theorem hashFn_inj {b1 b2 : Block} (h : hashFn b1 = hashFn b2) : b1 = b2 := by
  have h2 : encBlock b1 = encBlock b2 := congrArg String.data h
  rw [encBlock, encBlock, List.append_assoc, List.append_assoc, List.append_assoc,
    List.append_assoc, List.append_assoc, List.append_assoc] at h2
  obtain ⟨e1, h4⟩ := encOptStr_cancel h2
  obtain ⟨e2, h5⟩ := encNat_cancel h4
  obtain ⟨e3, h6⟩ := encStrL_cancel h5
  obtain ⟨e4, h7⟩ := encStrL_cancel h6
  have h7e : encOptStr b1.previousBlockHash ++ [] = encOptStr b2.previousBlockHash ++ [] := by
    rw [List.append_nil, List.append_nil]; exact h7
  obtain ⟨e5, _⟩ := encOptStr_cancel h7e
  cases b1
  cases b2
  rw [Block.mk.injEq]
  exact ⟨e1, e2, String.ext e3, String.ext e4, e5⟩

/-! ## The append protocol preserves the chain invariant -/

theorem validateB_of_hash {b : Block} (h : b.hash = some (hashFn { b with hash := none })) :
    b.validateB = true := by
  rw [Block.validateB, h]
  simp

theorem get?_some_lt {α : Type} {l : List α} {i : Nat} {a : α} (h : l.get? i = some a) :
    i < l.length := by
  by_contra hlt
  rw [List.get?_eq_none.2 (by omega)] at h
  cases h

theorem validateChainAux_nil (chain : List Block)
    (hval : ∀ i b, chain.get? i = some b → b.validateB = true)
    (hlink : ∀ i a b, chain.get? i = some a → chain.get? (i + 1) = some b →
      b.previousBlockHash = a.hash) :
    ∀ (tl : List Block) (i0 : Nat),
      (∀ j b, tl.get? j = some b → chain.get? (i0 + j) = some b) →
      validateChainAux chain i0 tl = [] := by
  intro tl
  induction tl with
  | nil => intro i0 _; rfl
  | cons b tl ih =>
    intro i0 hsub
    have hb : chain.get? i0 = some b := by
      have := hsub 0 b (by simp)
      simpa using this
    rw [validateChainAux, if_pos (hval i0 b hb)]
    have hih : validateChainAux chain (i0 + 1) tl = [] := by
      apply ih (i0 + 1)
      intro j bj hj
      rw [show i0 + 1 + j = i0 + (j + 1) by omega]
      exact hsub (j + 1) bj (by simpa using hj)
    by_cases hi0 : i0 > 0
    · rw [if_pos hi0]
      have hlt := get?_some_lt hb
      cases hprev : chain.get? (i0 - 1) with
      | none =>
        have := List.get?_eq_none.1 hprev
        omega
      | some prev =>
        have hpl : b.previousBlockHash = prev.hash := by
          apply hlink (i0 - 1) prev b hprev
          rw [show i0 - 1 + 1 = i0 by omega]
          exact hb
        simp [hpl, hih]
    · rw [if_neg hi0]
      simp [hih]

theorem validateChain_of_WFChain {chain : List Block} (hW : WFChain chain) :
    validateChain chain = [] := by
  obtain ⟨hmain, hgen, hlink⟩ := hW
  rw [validateChain]
  apply validateChainAux_nil chain
  · intro i b hib
    exact validateB_of_hash (hmain i b hib).2.1
  · exact hlink
  · intro j b h
    simpa using h

theorem addBlock_fst (now : Nat) (s : ChainState) (b : Block) :
    (addBlock now s b).1 = ⟨s.chain ++ [finalizeBlock now s b], s.height + 1⟩ := by
  rw [addBlock]
  split <;> rfl

theorem finalizeBlock_height (now : Nat) (s : ChainState) (d : Json) :
    (finalizeBlock now s (Block.mkNew d)).height = s.chain.length := rfl

theorem finalizeBlock_hashOk (now : Nat) (s : ChainState) (d : Json) :
    (finalizeBlock now s (Block.mkNew d)).hash
      = some (hashFn { finalizeBlock now s (Block.mkNew d) with hash := none }) := by
  rw [finalizeBlock, Block.mkNew]
  cases s.chain.getLast? <;> rfl

theorem finalizeBlock_body (now : Nat) (s : ChainState) (d : Json) :
    (finalizeBlock now s (Block.mkNew d)).body = encodeData d := by
  rw [finalizeBlock, Block.mkNew]
  cases s.chain.getLast? <;> rfl

theorem finalizeBlock_prev (now : Nat) (s : ChainState) (d : Json) :
    (finalizeBlock now s (Block.mkNew d)).previousBlockHash
      = match s.chain.getLast? with | some l => l.hash | none => none := by
  rw [finalizeBlock, Block.mkNew]
  cases s.chain.getLast? <;> rfl

theorem WFState_addBlock {s : ChainState} (hW : WFState s) (now : Nat) (d : JsonFields) :
    WFState (addBlock now s (Block.mkNew (.obj d))).1 := by
  obtain ⟨⟨hmain, hgen, hlink⟩, hcache⟩ := hW
  rw [addBlock_fst]
  refine ⟨⟨?_, ?_, ?_⟩, ?_⟩
  · intro i b hib
    by_cases hi : i < s.chain.length
    · rw [List.get?_append hi] at hib
      exact hmain i b hib
    · have hlt := get?_some_lt hib
      simp only [List.length_append, List.length_singleton] at hlt
      have hi2 : i = s.chain.length := by omega
      subst hi2
      rw [List.get?_concat_length] at hib
      obtain rfl := Option.some.inj hib
      refine ⟨finalizeBlock_height now s _, finalizeBlock_hashOk now s _, ?_⟩
      rw [finalizeBlock_body]
      exact ⟨mangleMembers d, by rw [decodePayload_encodeData]; rfl⟩
  · intro b hb
    cases hchain : s.chain with
    | nil =>
      rw [hchain] at hb
      simp only [List.nil_append] at hb
      rw [show ([finalizeBlock now s (Block.mkNew (.obj d))].get? 0)
          = some (finalizeBlock now s (Block.mkNew (.obj d))) from rfl] at hb
      obtain rfl := Option.some.inj hb
      rw [finalizeBlock_prev, hchain]
      rfl
    | cons b0 tl =>
      have h0 : 0 < s.chain.length := by rw [hchain]; simp
      rw [List.get?_append h0] at hb
      exact hgen b hb
  · intro i a b ha hb
    have hltb := get?_some_lt hb
    simp only [List.length_append, List.length_singleton] at hltb
    by_cases hi : i + 1 < s.chain.length
    · rw [List.get?_append hi] at hb
      rw [List.get?_append (by omega)] at ha
      exact hlink i a b ha hb
    · have hi2 : i + 1 = s.chain.length := by omega
      have ha2 : s.chain.get? i = some a := by
        rw [List.get?_append (by omega)] at ha
        exact ha
      rw [show i + 1 = s.chain.length from hi2, List.get?_concat_length] at hb
      obtain rfl := Option.some.inj hb
      rw [finalizeBlock_prev]
      have hlast : s.chain.getLast? = some a := by
        rw [List.getLast?_eq_get?]
        rw [show s.chain.length - 1 = i by omega]
        exact ha2
      rw [hlast]
  · simp only [List.length_append, List.length_singleton]
    push_cast
    omega

theorem Reachable_WFState {s : ChainState} (h : Reachable s) :
    WFState s ∧ s.chain ≠ [] := by
  induction h with
  | init now =>
    have hempty : WFState ⟨[], -1⟩ := by
      refine ⟨⟨?_, ?_, ?_⟩, by simp⟩
      · intro i b hib
        simp at hib
      · intro b hb
        simp at hb
      · intro i a b ha _
        simp at ha
    constructor
    · rw [initializeChain, show genesisData = Json.obj (.cons "data" (.str "Genesis Block") .nil) from rfl]
      exact WFState_addBlock hempty now _
    · rw [initializeChain, addBlock_fst]
      simp
  | step s now fs hs ih =>
    refine ⟨WFState_addBlock ih.1 now fs, ?_⟩
    rw [addBlock_fst]
    simp

theorem validateChain_reachable {s : ChainState} (h : Reachable s) :
    validateChain s.chain = [] :=
  validateChain_of_WFChain (Reachable_WFState h).1.1

/-! ## Support for the claim theorems -/

theorem validateChainAux_mem_invalid (chain : List Block) :
    ∀ (tl : List Block) (i0 j : Nat) (b : Block), tl.get? j = some b → b.validateB = false →
    (⟨i0 + j, "Block validation failed"⟩ : ChainError) ∈ validateChainAux chain i0 tl := by
  intro tl
  induction tl with
  | nil =>
    intro i0 j b h _
    simp at h
  | cons hd tl ih =>
    intro i0 j b hj hval
    cases j with
    | zero =>
      have hhd : hd = b := by simpa using hj
      subst hhd
      rw [validateChainAux, if_neg (by simp [hval])]
      simp
    | succ j =>
      have hmem := ih (i0 + 1) j b (by simpa using hj) hval
      rw [validateChainAux]
      rw [show i0 + (j + 1) = i0 + 1 + j by omega]
      exact List.mem_append.2 (Or.inr hmem)

theorem ownerMatches_eq (d : Json) (address : String) (hne : address ≠ "") :
    ownerMatches d address = decide (d.getField "owner" = some (.str address)) := by
  rw [ownerMatches]
  cases hgf : d.getField "owner" with
  | none => simp
  | some v =>
    by_cases hv : v = Json.str address
    · subst hv
      simp [jsTruthy, hne]
    · simp [hv]

theorem specRecordsFor_cons (b : Block) (tl : List Block) (a : String) :
    specRecordsFor (b :: tl) a
      = (match decodePayload b.body with
         | some d => if d.getField "owner" = some (.str a) then (d.getField "star").toList else []
         | none => []) ++ specRecordsFor tl a := by
  rw [specRecordsFor, List.flatMap_cons]
  rfl

theorem collectStars_ok (address : String) (hne : address ≠ "") :
    ∀ chain : List Block,
    (∀ b ∈ chain, ∃ fs : JsonFields, decodePayload b.body = some (.obj fs)) →
    collectStars address chain = .ok (specRecordsFor chain address) := by
  intro chain
  induction chain with
  | nil => intro _; rfl
  | cons b tl ih =>
    intro hall
    obtain ⟨fs, hfs⟩ := hall b (by simp)
    have hih := ih (fun x hx => hall x (by simp [hx]))
    simp only [collectStars, hfs, reduceCtorEq, if_false, hih]
    by_cases hown : (Json.obj fs).getField "owner" = some (Json.str address)
    · simp [specRecordsFor_cons, specRecordsFor, hfs, ownerMatches_eq _ _ hne, hown]
    · simp [specRecordsFor_cons, specRecordsFor, hfs, ownerMatches_eq _ _ hne, hown]

theorem collectStars_isOk (address : String) :
    ∀ chain : List Block,
    (∀ b ∈ chain, ∃ fs : JsonFields, decodePayload b.body = some (.obj fs)) →
    ∃ l, collectStars address chain = .ok l := by
  intro chain
  induction chain with
  | nil => intro _; exact ⟨[], rfl⟩
  | cons b tl ih =>
    intro hall
    obtain ⟨fs, hfs⟩ := hall b (by simp)
    obtain ⟨l, hl⟩ := ih (fun x hx => hall x (by simp [hx]))
    simp only [collectStars, hfs, reduceCtorEq, if_false, hl]
    exact ⟨_, rfl⟩

/-! ## The claim theorems -/

/-- C1: for every reachable ledger state, `blocks[i].height == i`,
`blocks[0].previousBlockHash` is null, every later block links to the stored
hash of its predecessor, the cached height equals `blocks.length - 1`, and a
freshly initialised ledger holds exactly one block (the genesis block). -/
theorem chain_wellformedness (s : ChainState) (hs : Reachable s) :
    (∀ i b, s.chain.get? i = some b → b.height = i) ∧
    (∀ b, s.chain.get? 0 = some b → b.previousBlockHash = none) ∧
    (∀ i a b, s.chain.get? i = some a → s.chain.get? (i + 1) = some b →
      b.previousBlockHash = a.hash) ∧
    s.height = (s.chain.length : Int) - 1 ∧
    (∀ now, (initializeChain now).chain.length = 1) := by
  obtain ⟨⟨hmain, hgen, hlink⟩, hcache⟩ := (Reachable_WFState hs).1
  refine ⟨fun i b hib => (hmain i b hib).1, hgen, hlink, hcache, fun now => ?_⟩
  rw [initializeChain, addBlock_fst]
  simp

/-- Closed witness for C1 at the freshly initialised ledger. -/
theorem chain_wellformedness_witness :
    (∀ i b, (initializeChain 7).chain.get? i = some b → b.height = i) ∧
    (∀ b, (initializeChain 7).chain.get? 0 = some b → b.previousBlockHash = none) ∧
    (∀ i a b, (initializeChain 7).chain.get? i = some a →
      (initializeChain 7).chain.get? (i + 1) = some b → b.previousBlockHash = a.hash) ∧
    (initializeChain 7).height = ((initializeChain 7).chain.length : Int) - 1 ∧
    (∀ now, (initializeChain now).chain.length = 1) :=
  chain_wellformedness (initializeChain 7) (Reachable.init 7)

/-- C2: on a reachable (never externally mutated) ledger every stored
block's `validate()` resolves true and `validateChain()` resolves with the
empty error sequence. -/
theorem untampered_chain_validates (s : ChainState) (hs : Reachable s) :
    (∀ b ∈ s.chain, b.validateB = true) ∧ validateChain s.chain = [] := by
  have hW := (Reachable_WFState hs).1
  refine ⟨?_, validateChain_of_WFChain hW.1⟩
  intro b hb
  obtain ⟨i, hi⟩ := List.mem_iff_get?.1 hb
  exact validateB_of_hash (hW.1.1 i b hi).2.1

/-- Closed witness for C2 at the freshly initialised ledger. -/
theorem untampered_chain_validates_witness :
    (∀ b ∈ (initializeChain 7).chain, b.validateB = true) ∧
    validateChain (initializeChain 7).chain = [] :=
  untampered_chain_validates (initializeChain 7) (Reachable.init 7)

/-- C3: mutating any field other than `hash` of a stored block (leaving the
stored hash unchanged) makes that block's `validate()` resolve false and
makes `validateChain()` report an error carrying that block's index. -/
theorem tamper_detection (s : ChainState) (hs : Reachable s) (i : Nat) (b b' : Block)
    (hb : s.chain.get? i = some b) (hhash : b'.hash = b.hash) (hne : b' ≠ b) :
    b'.validateB = false ∧
    ∃ e ∈ validateChain (s.chain.set i b'), e.block = i := by
  have hW := (Reachable_WFState hs).1
  have hbh : b.hash = some (hashFn { b with hash := none }) := (hW.1.1 i b hb).2.1
  have hval : b'.validateB = false := by
    rw [Block.validateB, hhash, hbh]
    apply decide_eq_false
    intro heq
    have hsame := hashFn_inj heq
    apply hne
    cases b
    cases b'
    simp only [Block.mk.injEq] at hsame hhash ⊢
    obtain ⟨-, h2, h3, h4, h5⟩ := hsame
    exact ⟨hhash, h2.symm, h3.symm, h4.symm, h5.symm⟩
  refine ⟨hval, ⟨i, "Block validation failed"⟩, ?_, rfl⟩
  have hget : (s.chain.set i b').get? i = some b' := by
    rw [List.get?_set_eq]
    rw [hb]
    rfl
  have hmem := validateChainAux_mem_invalid (s.chain.set i b') (s.chain.set i b') 0 i b'
    hget hval
  simpa [validateChain] using hmem

/-- Closed witness for C3: the genesis block of a fresh ledger with its
height overwritten to 5 fails `validate()` and is reported at index 0. -/
theorem tamper_detection_witness :
    ({ (initializeChain 0).chain.headD default with height := 5 } : Block).validateB = false ∧
    ∃ e ∈ validateChain ((initializeChain 0).chain.set 0
      { (initializeChain 0).chain.headD default with height := 5 }), e.block = 0 :=
  tamper_detection (initializeChain 0) (Reachable.init 0) 0
    ((initializeChain 0).chain.headD default)
    { (initializeChain 0).chain.headD default with height := 5 }
    (by rfl) (by rfl) (by decide)

/-- C4: `_addBlock` always pushes the prepared block and increments the
cached height first; when the whole-chain re-validation then reports
errors, the call rejects with those errors, but the push and the height
increment are not rolled back. -/
theorem append_failure_not_rolled_back (now : Nat) (s : ChainState) (b : Block) :
    (addBlock now s b).1.chain = s.chain ++ [finalizeBlock now s b] ∧
    (addBlock now s b).1.height = s.height + 1 ∧
    (validateChain (s.chain ++ [finalizeBlock now s b]) ≠ [] →
      (addBlock now s b).2 = .error (validateChain (s.chain ++ [finalizeBlock now s b]))) := by
  refine ⟨by rw [addBlock_fst], by rw [addBlock_fst], ?_⟩
  intro herr
  rw [addBlock]
  rw [if_neg (by simpa [List.isEmpty_iff] using herr)]

/-- Closed witness for C4 at a corrupted one-block state: the append
rejects, yet the new block is in the chain and the height was bumped. -/
theorem append_failure_not_rolled_back_witness :
    (addBlock 0 ⟨[⟨some "x", 0, "", "0", none⟩], 0⟩ (Block.mkNew genesisData)).1.chain
      = [⟨some "x", 0, "", "0", none⟩] ++
        [finalizeBlock 0 ⟨[⟨some "x", 0, "", "0", none⟩], 0⟩ (Block.mkNew genesisData)] ∧
    (addBlock 0 ⟨[⟨some "x", 0, "", "0", none⟩], 0⟩ (Block.mkNew genesisData)).1.height = 0 + 1 ∧
    (addBlock 0 ⟨[⟨some "x", 0, "", "0", none⟩], 0⟩ (Block.mkNew genesisData)).2
      = .error (validateChain ([⟨some "x", 0, "", "0", none⟩] ++
          [finalizeBlock 0 ⟨[⟨some "x", 0, "", "0", none⟩], 0⟩ (Block.mkNew genesisData)])) := by
  obtain ⟨h1, h2, h3⟩ :=
    append_failure_not_rolled_back 0 ⟨[⟨some "x", 0, "", "0", none⟩], 0⟩ (Block.mkNew genesisData)
  exact ⟨h1, h2, h3 (by decide)⟩

/-- C5: a stale challenge makes `submitStar` reject with the expiry error
and leaves the state untouched; a fresh challenge whose signature the
external verifier refuses makes it reject with the signature error, again
leaving the state untouched. -/
theorem submitStar_reject_atomic (verify : String → String → String → Bool) (now : Nat)
    (s : ChainState) (address message signature : String) (star : Json) :
    (freshCheck message now = false →
      submitStar verify now s address message signature star = (s, .error .expired)) ∧
    (freshCheck message now = true → verify message address signature = false →
      submitStar verify now s address message signature star = (s, .error .badSignature)) := by
  constructor
  · intro hf
    rw [submitStar, if_neg (by simp [hf])]
  · intro hf hv
    rw [submitStar, if_pos hf, if_neg (by simp [hv])]

/-- Closed witness for C5: one stale-challenge rejection and one
bad-signature rejection, both leaving the state unchanged. -/
theorem submitStar_reject_atomic_witness :
    submitStar (fun _ _ _ => true) 1000 (initializeChain 0) "a" "a:1:starRegistry" "sig" Json.null
      = (initializeChain 0, .error .expired) ∧
    submitStar (fun _ _ _ => false) 1000 (initializeChain 0) "a" "a:1000:starRegistry" "sig" Json.null
      = (initializeChain 0, .error .badSignature) :=
  ⟨(submitStar_reject_atomic (fun _ _ _ => true) 1000 (initializeChain 0)
      "a" "a:1:starRegistry" "sig" Json.null).1 (by decide),
   (submitStar_reject_atomic (fun _ _ _ => false) 1000 (initializeChain 0)
      "a" "a:1000:starRegistry" "sig" Json.null).2 (by decide) rfl⟩

/-- C6 counterexample: for the identity `"a:b"` (which contains the
separator `':'`), a challenge issued at time 1000 is already rejected by the
freshness check at time 1000 — a just-issued challenge is *not* accepted as
fresh for every identity. -/
theorem challenge_freshness_counterexample :
    freshCheck (requestOwnership "a:b" 1000) 1000 = false := by decide

/-- C6 (amended): `requestMessageOwnershipVerification` returns exactly
`"{identity}:{seconds}:starRegistry"` for every identity; and for every
identity free of `':'`, the freshness check applied by `submitStar` accepts
the challenge exactly when `now - issuedAt < 300` — in particular a
just-issued challenge is accepted as fresh. -/
theorem challenge_issuance_and_freshness (address : String) (t now : Nat)
    (hnc : ':' ∉ address.data) :
    requestOwnership address t = address ++ ":" ++ String.mk (natDec t) ++ ":starRegistry" ∧
    freshCheck (requestOwnership address t) now = decide ((now : Int) - t < 300) ∧
    freshCheck (requestOwnership address t) t = true := by
  refine ⟨rfl, freshCheck_requestOwnership address t now hnc, ?_⟩
  rw [freshCheck_requestOwnership address t t hnc]
  simp

/-- Closed witness for C6 (amended) at identity `"abc"`. -/
theorem challenge_issuance_and_freshness_witness :
    requestOwnership "abc" 5 = "abc" ++ ":" ++ String.mk (natDec 5) ++ ":starRegistry" ∧
    freshCheck (requestOwnership "abc" 5) 10 = decide ((10 : Int) - 5 < 300) ∧
    freshCheck (requestOwnership "abc" 5) 5 = true :=
  challenge_issuance_and_freshness "abc" 5 10 (by decide)

/-- C7 counterexample: a record containing a non-ASCII character does not
survive the codec round trip — `hex2ascii` decodes the UTF-8 bytes of `"é"`
byte-wise, so decoding yields a different string. -/
theorem codec_roundtrip_counterexample :
    decodePayload (encodeData (Json.str "é")) ≠ some (Json.str "é") := by decide

/-- C7 (amended): the codec round trip holds for every structured record
whose strings (keys and contents) are ASCII: decoding the hex-of-JSON
payload produced by encoding recovers the record exactly. -/
theorem codec_roundtrip_ascii (x : Json) (h : asciiVal x = true) :
    decodePayload (encodeData x) = some x :=
  decodePayload_encodeData_ascii x h

/-- Closed witness for C7 (amended) at a concrete ASCII record. -/
theorem codec_roundtrip_ascii_witness :
    asciiVal (Json.obj (.cons "owner" (.str "ab") (.cons "star" (.str "s1") .nil))) = true ∧
    decodePayload (encodeData (Json.obj (.cons "owner" (.str "ab") (.cons "star" (.str "s1") .nil))))
      = some (Json.obj (.cons "owner" (.str "ab") (.cons "star" (.str "s1") .nil))) :=
  ⟨by decide, codec_roundtrip_ascii _ (by decide)⟩

/-- C8 (amended): on every reachable ledger, for every *non-empty* identity,
`getStarsByWalletAddress` resolves with exactly the record values of the
blocks whose decoded payload carries that owner, in chain order, and with
`null` when that filtered sequence is empty. -/
theorem identity_query (s : ChainState) (hs : Reachable s) (address : String)
    (hne : address ≠ "") :
    getStarsByWalletAddress s.chain address =
      .ok (if specRecordsFor s.chain address = [] then none
           else some (specRecordsFor s.chain address)) := by
  have hW := (Reachable_WFState hs).1
  have hbodies : ∀ b ∈ s.chain, ∃ fs : JsonFields, decodePayload b.body = some (.obj fs) := by
    intro b hb
    obtain ⟨i, hi⟩ := List.mem_iff_get?.1 hb
    exact (hW.1.1 i b hi).2.2
  rw [getStarsByWalletAddress, collectStars_ok address hne s.chain hbodies]
  simp [List.isEmpty_iff]

set_option maxRecDepth 10000 in
/-- C8 counterexample: for the empty identity the claim fails — after a
record is submitted under the identity `""` (the signature verifier being
external), the spec-side filtered sequence is non-empty, yet
`getStarsByWalletAddress` resolves with `null`, because the code's
truthiness test `decodedData.owner && ...` rejects the empty string. -/
theorem identity_query_counterexample :
    getStarsByWalletAddress
      (submitStar (fun _ _ _ => true) 1 (initializeChain 0) ""
        (requestOwnership "" 1) "sig" (Json.str "s")).1.chain "" = .ok none ∧
    specRecordsFor
      (submitStar (fun _ _ _ => true) 1 (initializeChain 0) ""
        (requestOwnership "" 1) "sig" (Json.str "s")).1.chain "" = [Json.str "s"] :=
  ⟨rfl, rfl⟩

/-- Closed witness for C8 (amended) on a reachable two-block ledger. -/
theorem identity_query_witness :
    getStarsByWalletAddress
      (addBlock 2 (initializeChain 0)
        (Block.mkNew (.obj (.cons "owner" (.str "ab") (.cons "star" (.str "s1") .nil))))).1.chain
      "ab" =
      .ok (if specRecordsFor (addBlock 2 (initializeChain 0)
            (Block.mkNew (.obj (.cons "owner" (.str "ab") (.cons "star" (.str "s1") .nil))))).1.chain
            "ab" = []
          then none
          else some (specRecordsFor (addBlock 2 (initializeChain 0)
            (Block.mkNew (.obj (.cons "owner" (.str "ab") (.cons "star" (.str "s1") .nil))))).1.chain
            "ab")) :=
  identity_query _
    (Reachable.step (initializeChain 0) 2 (.cons "owner" (.str "ab") (.cons "star" (.str "s1") .nil))
      (Reachable.init 0))
    "ab" (by decide)

/-- C10: every block of a reachable ledger has a non-null hash and a body
that decodes as JSON; hence `getBData` succeeds on every non-genesis block
and the decoding inside `getStarsByWalletAddress` never fails. -/
theorem stored_block_decodability (s : ChainState) (hs : Reachable s) :
    (∀ b ∈ s.chain, b.hash ≠ none ∧ (decodePayload b.body).isSome) ∧
    (∀ b ∈ s.chain, b.height ≠ 0 → ∃ j, b.getBData = .ok j) ∧
    (∀ address, ∃ r, getStarsByWalletAddress s.chain address = .ok r) := by
  have hW := (Reachable_WFState hs).1
  have hbodies : ∀ b ∈ s.chain, ∃ fs : JsonFields, decodePayload b.body = some (.obj fs) := by
    intro b hb
    obtain ⟨i, hi⟩ := List.mem_iff_get?.1 hb
    exact (hW.1.1 i b hi).2.2
  refine ⟨?_, ?_, ?_⟩
  · intro b hb
    obtain ⟨i, hi⟩ := List.mem_iff_get?.1 hb
    obtain ⟨fs, hfs⟩ := hbodies b hb
    exact ⟨by simp [(hW.1.1 i b hi).2.1], by simp [hfs]⟩
  · intro b hb hh
    obtain ⟨fs, hfs⟩ := hbodies b hb
    exact ⟨.obj fs, by rw [Block.getBData, if_pos hh, hfs]⟩
  · intro address
    obtain ⟨l, hl⟩ := collectStars_isOk address s.chain hbodies
    exact ⟨_, by rw [getStarsByWalletAddress, hl]⟩

/-- Closed witness for C10 at the freshly initialised ledger. -/
theorem stored_block_decodability_witness :
    (∀ b ∈ (initializeChain 3).chain, b.hash ≠ none ∧ (decodePayload b.body).isSome) ∧
    (∀ b ∈ (initializeChain 3).chain, b.height ≠ 0 → ∃ j, b.getBData = .ok j) ∧
    (∀ address, ∃ r, getStarsByWalletAddress (initializeChain 3).chain address = .ok r) :=
  stored_block_decodability (initializeChain 3) (Reachable.init 3)
